import Mathlib

set_option maxHeartbeats 1000000
set_option maxRecDepth 4000

/-!
# Verification of the OpenCaselist block-scrapper core

Shallow embedding of the algorithmic core of `src/Caselistscrapper.py`:
run classification and rich-text rendering (`_run_tier`, `_para_to_rich`),
the citation-tag matcher (`_CITE_TAG_RE`), heading/section classification
(`_section_transition`, `_try_get_block_name` and the regexes they use),
the block extractor (`extract_blocks`), argument grouping
(`group_by_argument`) and the side-partition loop of `main`.

Text is modelled as `List Char`.  Python regexes are translated into
deterministic matching functions; where a regex engine would backtrack,
the relevant alternative is provably dead and a comment records the
argument.  Character classes (`\s`, `\d`, `\w`, `[A-Z]`) are taken over
the ASCII range, which covers every text this development evaluates.
-/

/-- Shorthand: the character-list representation of text. -/
abbrev LC := List Char

/-- Coerce a string literal to its character list. -/
def str (s : String) : LC := s.data

/-- Python whitespace (`\s`, `str.strip`), restricted to ASCII:
space, tab, newline, carriage return, vertical tab, form feed. -/
def isPySpace (c : Char) : Bool :=
  c = ' ' || c = '\t' || c = '\n' || c = Char.ofNat 13 || c = Char.ofNat 11 || c = Char.ofNat 12

/-- Python `str.lstrip()`. -/
def pyLstrip (l : LC) : LC := l.dropWhile isPySpace

/-- Drop trailing characters satisfying `p` (generic right strip). -/
def rstripBy (p : Char → Bool) (l : LC) : LC := (l.reverse.dropWhile p).reverse

/-- Python `str.strip()`. -/
def pyStrip (l : LC) : LC := rstripBy isPySpace (pyLstrip l)

/-- Python `str.lower()` (ASCII). -/
def toLowerL (l : LC) : LC := l.map Char.toLower

/-- Python `str.upper()` (ASCII). -/
def toUpperL (l : LC) : LC := l.map Char.toUpper

/-- Auxiliary for `collapseWs`: the flag records whether the previous
character was whitespace (already emitted as a single space). -/
def collapseWsAux : Bool → LC → LC
  | _, [] => []
  | prevSp, c :: rest =>
    if isPySpace c then
      if prevSp then collapseWsAux true rest
      else ' ' :: collapseWsAux true rest
    else c :: collapseWsAux false rest

/-- Python `re.sub(r'\s+', ' ', s)`: each maximal whitespace run becomes one space. -/
def collapseWs (l : LC) : LC := collapseWsAux false l

/-- `_normalize` (src line 741): `re.sub(r'\s+', ' ', name.lower().strip())`. -/
def normalizeName (name : LC) : LC := collapseWs (pyStrip (toLowerL name))

/-- Python substring test `n in h` (contiguous). -/
def isSubstr (n h : LC) : Bool := h.tails.any (fun t => n.isPrefixOf t)

/-- Prefix test. -/
def startsL (p l : LC) : Bool := p.isPrefixOf l

/-- Decimal representation of a natural number, as characters. -/
def natStr (n : Nat) : LC := (Nat.repr n).data

/-- `_xml_escape` (src line 429).  The four sequential `str.replace`
calls never rewrite each other's output, so they equal this single
character-wise expansion. -/
def xml_escape (t : LC) : LC :=
  (t.map (fun c =>
    if c = '&' then str "&amp;"
    else if c = '<' then str "&lt;"
    else if c = '>' then str "&gt;"
    else if c = Char.ofNat 34 then str "&quot;"
    else [c])).flatten

/-! ## The citation-tag matcher `_CITE_TAG_RE` (src line 414)

`^([A-Z][A-Za-z\-]+(?:\s+(?:et\s+al\.?|and\s+[A-Z][A-Za-z\-]+))?\s+\d{2})\b`
(no IGNORECASE).  The match functions below return the length of group 1
(`cite_m.end(1)` in the source).  Greedy quantifier positions that the
Python engine could backtrack over are all provably forced:
every `+`/`*` class here is followed by a requirement from a disjoint
character class, so only the maximal munch can succeed. -/

/-- `[A-Z]`. -/
def isUpperAZ (c : Char) : Bool := 'A' ≤ c && c ≤ 'Z'

/-- `[A-Za-z\-]`. -/
def isNameCh (c : Char) : Bool :=
  ('A' ≤ c && c ≤ 'Z') || ('a' ≤ c && c ≤ 'z') || c = '-'

/-- `\d` (ASCII). -/
def isDigit09 (c : Char) : Bool := '0' ≤ c && c ≤ '9'

/-- `\w` (ASCII), for the `\b` boundary test. -/
def isWordCh (c : Char) : Bool :=
  ('A' ≤ c && c ≤ 'Z') || ('a' ≤ c && c ≤ 'z') || isDigit09 c || c = '_'

/-- The optional group `(?:\s+(?:et\s+al\.?|and\s+[A-Z][A-Za-z\-]+))`.
Returns the number of characters it consumes.  The two alternatives
start with distinct letters (`e` vs `a`), so the alternation is
deterministic; the optional `\.?` after `al` is forced greedy because the
following `\s+` of the tail can never match a `.`. -/
def citeGroup (s : LC) : Option Nat :=
  let sp := s.takeWhile isPySpace
  if sp.isEmpty then none else
  match s.drop sp.length with
  | 'e' :: 't' :: s2 =>
    let sp2 := s2.takeWhile isPySpace
    if sp2.isEmpty then none else
    (match s2.drop sp2.length with
     | 'a' :: 'l' :: s3 =>
       let dot := match s3 with | '.' :: _ => 1 | _ => 0
       some (sp.length + 2 + sp2.length + 2 + dot)
     | _ => none)
  | 'a' :: 'n' :: 'd' :: s2 =>
    let sp2 := s2.takeWhile isPySpace
    if sp2.isEmpty then none else
    (match s2.drop sp2.length with
     | c :: s3 =>
       if isUpperAZ c then
         let w := s3.takeWhile isNameCh
         if w.isEmpty then none
         else some (sp.length + 3 + sp2.length + 1 + w.length)
       else none
     | [] => none)
  | _ => none

/-- The tail `\s+\d{2}` followed by the zero-width `\b`. -/
def citeTail (s : LC) : Option Nat :=
  let sp := s.takeWhile isPySpace
  if sp.isEmpty then none else
  match s.drop sp.length with
  | d1 :: d2 :: rest =>
    if isDigit09 d1 && isDigit09 d2 then
      match rest with
      | [] => some (sp.length + 2)
      | c :: _ => if isWordCh c then none else some (sp.length + 2)
    else none
  | [d1] => if isDigit09 d1 then none else none
  | [] => none

/-- `_CITE_TAG_RE.match`: length of group 1 on success.
If the optional group matches, the character after the author word's
whitespace is a letter, so the group-less alternative (`\s+\d{2}` right
after the author word) cannot match either; hence no fallback is needed
when the tail fails after a successful group. -/
def matchCite : LC → Option Nat
  | [] => none
  | c :: rest =>
    if isUpperAZ c then
      let w := rest.takeWhile isNameCh
      if w.isEmpty then none else
      let rest1 := rest.drop w.length
      match citeGroup rest1 with
      | some g => (citeTail (rest1.drop g)).map (fun m => 1 + w.length + g + m)
      | none => (citeTail rest1).map (fun m => 1 + w.length + m)
    else none

/-- `cite_end` as computed in `_para_to_rich` (src lines 488-491):
`leading_ws + cite_m.end(1)` on a match, `0` otherwise. -/
def citeEnd (fullText : LC) : Nat :=
  let stripped := pyLstrip fullText
  match matchCite stripped with
  | some e => (fullText.length - stripped.length) + e
  | none => 0

/-! ## Run classification and rich-text rendering -/

/-- Card font sizes (src lines 72-74). -/
def SZ_READ : Nat := 11

/-- Underline only: supporting context (src line 73). -/
def SZ_CONTEXT : Nat := 11

/-- Plain text: background (src line 74). -/
def SZ_FILLER : Nat := 8

/-- `FONT_NORMAL` as registered by `_register_calibri` when Calibri (or
Carlito) is found; the claims under study do not depend on this value. -/
def FONT_NORMAL : LC := str "Calibri"

/-- `FONT_BOLD`, see `FONT_NORMAL`. -/
def FONT_BOLD : LC := str "Calibri-Bold"

/-- `_HIGHLIGHT_COLORS` (src lines 77-88). -/
def HIGHLIGHT_COLORS : List (LC × LC) :=
  [ (str "YELLOW", str "#cce8ff"),
    (str "TURQUOISE", str "#cce8ff"),
    (str "BRIGHT_GREEN", str "#cce8ff"),
    (str "PINK", str "#cce8ff"),
    (str "RED", str "#cce8ff"),
    (str "BLUE", str "#cce8ff"),
    (str "TEAL", str "#cce8ff"),
    (str "VIOLET", str "#cce8ff"),
    (str "DARK_YELLOW", str "#cce8ff"),
    (str "GREEN", str "#cce8ff") ]

/-- `dict.get` on `_HIGHLIGHT_COLORS`. -/
def hlLookup (k : LC) : Option LC :=
  (HIGHLIGHT_COLORS.find? (fun p => decide (p.1 = k))).map (·.2)

/-- One docx run.  `bold`/`underline` are tri-state as in python-docx
(`None` = unset at the direct run-formatting level); `highlight` holds
the `WD_COLOR_INDEX` name as printed, i.e. `str(h).split()[0]`. -/
structure Run where
  text : LC
  bold : Option Bool
  underline : Option Bool
  highlight : Option LC
deriving DecidableEq, Repr

/-- `_run_tier` (src lines 437-447).  `bool(run.bold)` maps Python
`None` to `False`, i.e. `Option.getD false`. -/
def run_tier (r : Run) : LC :=
  let bold := r.bold.getD false
  let underline := r.underline.getD false
  if bold && underline then str "read"
  else if underline then str "context"
  else str "filler"

/-- `_has_highlight` (src lines 450-452). -/
def has_highlight (r : Run) : Bool :=
  match r.highlight with
  | some h => (HIGHLIGHT_COLORS.find? (fun p => decide (p.1 = h))).isSome
  | none => false

/-- The argument tuple of one `_format_run_fragment` call made by
`_para_to_rich`: text, bold, underline, highlight background, font size. -/
structure Frag where
  text : LC
  bold : Bool
  underline : Bool
  hlBg : Option LC
  size : Nat
deriving DecidableEq, Repr

/-- `_format_run_fragment` (src lines 455-469). -/
def format_run_fragment (f : Frag) : LC :=
  let tEsc := xml_escape f.text
  let inner :=
    if f.bold && f.underline then str "<b><u>" ++ tEsc ++ str "</u></b>"
    else if f.underline then str "<u>" ++ tEsc ++ str "</u>"
    else if f.bold then str "<b>" ++ tEsc ++ str "</b>"
    else tEsc
  let inner2 :=
    match f.hlBg with
    | some bg =>
      str "<font backColor=" ++ [Char.ofNat 34] ++ bg ++ [Char.ofNat 34] ++ str ">"
        ++ inner ++ str "</font>"
    | none => inner
  let fname := if f.bold then FONT_BOLD else FONT_NORMAL
  str "<font size=" ++ [Char.ofNat 34] ++ natStr f.size ++ [Char.ofNat 34]
    ++ str " name=" ++ [Char.ofNat 34] ++ fname ++ [Char.ofNat 34] ++ str ">"
    ++ inner2 ++ str "</font>"

/-- One docx paragraph: its style name (`""` when `para.style` is
`None`) and its runs. -/
structure Para where
  styleName : LC
  runs : List Run
deriving DecidableEq, Repr

/-- `para.text`: python-docx concatenates the texts of the runs. -/
def paraText (p : Para) : LC := (p.runs.map Run.text).flatten

/-- `hl_bg` of a run (src lines 504-506): highlight-name lookup in the
color map. -/
def hlBgOf (r : Run) : Option LC :=
  match r.highlight with
  | some h => hlLookup h
  | none => none

/-- The run loop of `_para_to_rich` (src lines 493-535), collecting the
argument tuples of the `_format_run_fragment` calls in order.  `ce` is
`cite_end`, `pos` is `char_pos`. -/
def fragsLoop (ce : Nat) : Nat → List Run → List Frag
  | _, [] => []
  | pos, r :: rs =>
    if r.text.isEmpty then fragsLoop ce pos rs
    else
      let bold := r.bold.getD false
      let underline := r.underline.getD false
      let hlBg := hlBgOf r
      let t := r.text
      let rest := fragsLoop ce (pos + t.length) rs
      if 0 < ce ∧ pos < ce then
        let split := min (ce - pos) t.length
        let prefixT := t.take split
        let restT := t.drop split
        (if prefixT.isEmpty then []
         else [⟨prefixT, true, false, hlBg, SZ_READ⟩])
        ++ (if restT.isEmpty then []
            else [⟨restT, bold, underline, hlBg,
                   if underline || hlBg.isSome then SZ_READ else SZ_FILLER⟩])
        ++ rest
      else
        ⟨t, bold, underline, hlBg,
          if underline || hlBg.isSome then SZ_READ else SZ_FILLER⟩ :: rest

/-- All fragments produced by `_para_to_rich` for a paragraph. -/
def paraFrags (p : Para) : List Frag :=
  fragsLoop (citeEnd (paraText p)) 0 p.runs

/-- `_para_to_rich` (src lines 472-537): the joined markup parts. -/
def para_to_rich (p : Para) : LC :=
  ((paraFrags p).map format_run_fragment).flatten

/-! ## Heading/section classification

`_AT_PREFIX_RE`, `_A2_NOCOLON_RE`, `_TAIL_JUNK_RE`, `_REBUTTAL_SPEECH_RE`,
`_CONSTRUCTIVE_SPEECH_RE`, `_DEFENSE_SECTION_RE` (src lines 362-410), all
with `re.IGNORECASE`: matching is performed on the lowercased text
(lowercasing is length-preserving on ASCII, so match lengths carry over).
As with the cite regex, each greedy class below is followed by a
requirement from a disjoint class, so backtracking is provably dead;
alternatives are distinguished by their first one or two characters. -/

/-- `\s*[:\-]\s*` — the separator closing the first `_AT_PREFIX_RE`
alternative.  Returns the consumed length. -/
def sepCD (s : LC) : Option Nat :=
  let sp1 := s.takeWhile isPySpace
  match s.drop sp1.length with
  | c :: r =>
    if c = ':' || c = '-' then some (sp1.length + 1 + (r.takeWhile isPySpace).length)
    else none
  | [] => none

/-- The optional parts `(?:wer)?s?(?:\s+to)?` after a matched `ans`
(lowered text).  Each option is literal and the following separator
starts with `\s*[:\-]`, so declining a literally-present option leaves
the engine at a letter where the separator must fail: the greedy,
deterministic reading below is exact. -/
def ansOptLen (s : LC) : Nat :=
  let (n1, s1) := if startsL (str "wer") s then (3, s.drop 3) else (0, s)
  let (n2, s2) := if startsL (str "s") s1 then (1, s1.drop 1) else (0, s1)
  let n3 :=
    let sp := s2.takeWhile isPySpace
    if !sp.isEmpty && startsL (str "to") (s2.drop sp.length) then sp.length + 2 else 0
  n1 + n2 + n3

/-- First `_AT_PREFIX_RE` alternative:
`(?:AT|A2|A/2|ANS(?:WER)?S?(?:\s+TO)?)\s*[:\-]\s*` on lowered text.
The four heads are distinguished by the second character. -/
def alt1Len (l : LC) : Option Nat :=
  match l with
  | 'a' :: 't' :: r => (sepCD r).map (fun m => 2 + m)
  | 'a' :: '2' :: r => (sepCD r).map (fun m => 2 + m)
  | 'a' :: '/' :: '2' :: r => (sepCD r).map (fun m => 3 + m)
  | 'a' :: 'n' :: 's' :: r =>
    let k := ansOptLen r
    (sepCD (r.drop k)).map (fun m => 3 + k + m)
  | _ => none

/-- Is one of `2ac|2nc|1ar|2ar|1nr` a prefix of the (lowered) text? -/
def speechHead3 (l : LC) : Bool :=
  startsL (str "2ac") l || startsL (str "2nc") l || startsL (str "1ar") l ||
  startsL (str "2ar") l || startsL (str "1nr") l

/-- The `[-—:]` class of the second `_AT_PREFIX_RE` alternative
(hyphen, em dash, colon — the en dash is not in this class). -/
def dashColonCh (c : Char) : Bool := c = '-' || c = Char.ofNat 8212 || c = ':'

/-- Second `_AT_PREFIX_RE` alternative:
`(?:2AC|2NC|1AR|2AR|1NR)\s*[-—:]+\s*(?:AT|A2|A/2)\s*[:\-]?\s*`. -/
def alt2Len (l : LC) : Option Nat :=
  if speechHead3 l then
    let r := l.drop 3
    let sp1 := (r.takeWhile isPySpace).length
    let r1 := r.drop sp1
    let dashes := (r1.takeWhile dashColonCh).length
    if dashes = 0 then none else
    let r2 := r1.drop dashes
    let sp2 := (r2.takeWhile isPySpace).length
    let r3 := r2.drop sp2
    let atPart : Option (Nat × LC) :=
      match r3 with
      | 'a' :: 't' :: rr => some (2, rr)
      | 'a' :: '2' :: rr => some (2, rr)
      | 'a' :: '/' :: '2' :: rr => some (3, rr)
      | _ => none
    match atPart with
    | some (k, rr) =>
      let sp3 := (rr.takeWhile isPySpace).length
      let rr1 := rr.drop sp3
      let cd := match rr1 with
        | c :: _ => if c = ':' || c = '-' then 1 else 0
        | [] => 0
      let sp4 := ((rr1.drop cd).takeWhile isPySpace).length
      some (3 + sp1 + dashes + sp2 + k + sp3 + cd + sp4)
    | none => none
  else none

/-- `_AT_PREFIX_RE.match` (src lines 389-398): length of the matched
prefix.  The two top-level alternatives start with disjoint characters
(`a` vs `1`/`2`), so trying them in order is deterministic. -/
def matchATPre (t : LC) : Option Nat :=
  let l := toLowerL t
  match alt1Len l with
  | some n => some n
  | none => alt2Len l

/-- `_A2_NOCOLON_RE.match` (src lines 401-404):
`^(?:A/2|A2)\s+(?=\S)`; the lookahead is zero-width. -/
def matchA2NC (t : LC) : Option Nat :=
  let l := toLowerL t
  let head : Option Nat :=
    match l with
    | 'a' :: '/' :: '2' :: _ => some 3
    | 'a' :: '2' :: _ => some 2
    | _ => none
  match head with
  | some k =>
    let r := l.drop k
    let sp := (r.takeWhile isPySpace).length
    if sp = 0 then none
    else if (r.drop sp).isEmpty then none
    else some (k + sp)
  | none => none

/-- The `[-–—]` class of `_TAIL_JUNK_RE` (hyphen, en dash, em dash). -/
def dashCh (c : Char) : Bool := c = '-' || c = Char.ofNat 8211 || c = Char.ofNat 8212

/-- Does one of the `_TAIL_JUNK_RE` labels
(`2AC|2NC|1AR|2AR|1NR|Extra|Add\s*[Oo]n|Topshelf`) start the (lowered) text? -/
def junkLabelAt (l : LC) : Bool :=
  speechHead3 l || startsL (str "extra") l ||
  (startsL (str "add") l &&
    (let r := l.drop 3
     startsL (str "on") (r.drop (r.takeWhile isPySpace).length))) ||
  startsL (str "topshelf") l

/-- Does `_TAIL_JUNK_RE` = `\s*[-–—]+\s*(labels).*$` match at this
position?  (`.*$` then swallows the rest; the heading texts this is
applied to are newline-free, where Python's `.`/`$` behave as
"everything to the end".) -/
def junkAt (t : LC) : Bool :=
  let s1 := t.dropWhile isPySpace
  let d := s1.takeWhile dashCh
  !d.isEmpty && junkLabelAt (toLowerL ((s1.drop d.length).dropWhile isPySpace))

/-- `_TAIL_JUNK_RE.sub("", name)`: delete from the leftmost match
position to the end of the string. -/
def tailJunkSub : LC → LC
  | [] => []
  | c :: rest => if junkAt (c :: rest) then [] else c :: tailJunkSub rest

/-- `ANSWERS?\s+TO` as a prefix of the lowered text.  Declining a
literally-present `S` leaves `\s+` at the letter `s`, which fails, so
the greedy reading is exact. -/
def answersToPre (l : LC) : Bool :=
  startsL (str "answer") l &&
  (let r := l.drop 6
   let r1 := if startsL (str "s") r then r.drop 1 else r
   let sp := r1.takeWhile isPySpace
   !sp.isEmpty && startsL (str "to") (r1.drop sp.length))

/-- `_REBUTTAL_SPEECH_RE.match` (src lines 362-366) as a Boolean:
does some alternative match a prefix?  (`BLOCKS?` as a prefix test
reduces to the literal `block`.) -/
def rebuttalMatch (t : LC) : Bool :=
  let l := toLowerL t
  speechHead3 l ||
  (startsL (str "neg") l && startsL (str "block") ((l.drop 3).dropWhile isPySpace)) ||
  (startsL (str "aff") l && startsL (str "block") ((l.drop 3).dropWhile isPySpace)) ||
  startsL (str "rebuttal") l ||
  answersToPre l ||
  startsL (str "block") l ||
  (startsL (str "off") l && startsL (str "case") ((l.drop 3).dropWhile isPySpace))

/-- `_REBUTTAL_SPEECH_RE.fullmatch`: some alternative consumes the whole
string. -/
def rebuttalFull (t : LC) : Bool :=
  let l := toLowerL t
  decide (l = str "2ac") || decide (l = str "2nc") || decide (l = str "1ar") ||
  decide (l = str "2ar") || decide (l = str "1nr") ||
  (startsL (str "neg") l && decide ((l.drop 3).dropWhile isPySpace = str "block")) ||
  (startsL (str "aff") l && decide ((l.drop 3).dropWhile isPySpace = str "block")) ||
  decide (l = str "rebuttal") ||
  (startsL (str "answer") l &&
    (let r := l.drop 6
     let r1 := if startsL (str "s") r then r.drop 1 else r
     let sp := r1.takeWhile isPySpace
     !sp.isEmpty && decide (r1.drop sp.length = str "to"))) ||
  decide (l = str "block") || decide (l = str "blocks") ||
  (startsL (str "off") l && decide ((l.drop 3).dropWhile isPySpace = str "case"))

/-- `_CONSTRUCTIVE_SPEECH_RE.match` (src lines 368-371):
`^(1AC|1NC)(?:\s|$|-)`. -/
def constructiveMatch (t : LC) : Bool :=
  let l := toLowerL t
  (startsL (str "1ac") l || startsL (str "1nc") l) &&
  (match l.drop 3 with
   | [] => true
   | c :: _ => isPySpace c || c = '-')

/-- `_DEFENSE_SECTION_RE.match` (src lines 373-376):
`^(DEFENSE|EXTENSIONS?)` as a prefix test. -/
def defenseMatch (t : LC) : Bool :=
  let l := toLowerL t
  startsL (str "defense") l || startsL (str "extension") l

/-- `rstrip("-–— ")` character set. -/
def dashSpaceCh (c : Char) : Bool := dashCh c || c = ' '

/-- `_try_get_block_name` (src lines 542-565). -/
def try_get_block_name (t : LC) : Option LC :=
  match matchATPre t with
  | some n =>
    let name := pyStrip (t.drop n)
    let name := pyStrip (rstripBy dashSpaceCh (pyStrip (tailJunkSub name)))
    if name.isEmpty then none else some name
  | none =>
    match matchA2NC t with
    | some n =>
      let name := pyStrip (t.drop n)
      let name := pyStrip (tailJunkSub name)
      if name.isEmpty then none else some name
    | none => none

/-- The cleanup applied to defense-mode heading names
(src lines 699, 710): `_TAIL_JUNK_RE.sub("", text).strip().rstrip("-–— ").strip()`. -/
def cleanDefName (t : LC) : LC :=
  pyStrip (rstripBy dashSpaceCh (pyStrip (tailJunkSub t)))

/-! ## The block extractor `extract_blocks` -/

/-- Token for one non-digit part of a whitespace split. -/
def splitWsAux : LC → LC → List LC
  | acc, [] => if acc.isEmpty then [] else [acc.reverse]
  | acc, c :: rest =>
    if isPySpace c then
      if acc.isEmpty then splitWsAux [] rest
      else acc.reverse :: splitWsAux [] rest
    else splitWsAux (c :: acc) rest

/-- Python `str.split()` with no arguments: split on whitespace runs,
dropping empty tokens. -/
def splitWs (l : LC) : List LC := splitWsAux [] l

/-- Numeric value of a digit list. -/
def digitsVal (ds : LC) : Nat := ds.foldl (fun a c => a * 10 + (c.toNat - 48)) 0

/-- Python `int(tok)` on a split token: an optional sign followed by
digits (`int` also tolerates surrounding whitespace and underscores,
which cannot occur in a whitespace-split token). -/
def tokInt (t : LC) : Option Int :=
  match t with
  | '-' :: ds =>
    if !ds.isEmpty && ds.all isDigit09 then some (-(digitsVal ds : Int)) else none
  | ds =>
    if !ds.isEmpty && ds.all isDigit09 then some (digitsVal ds : Int) else none

/-- `_heading_level` (src lines 419-426): parse the trailing number of a
`Heading N` style name; a `ValueError` yields level 1; a non-`Heading`
style yields `None`. -/
def heading_level (p : Para) : Option Int :=
  if startsL (str "Heading") p.styleName then
    match (splitWs p.styleName).getLast? with
    | some tok =>
      match tokInt tok with
      | some n => some n
      | none => some 1
    | none => some 1
  else none

/-- The `source_meta` dict built by `main` (src lines 986-995). -/
structure SourceMeta where
  school : LC := []
  team : LC := []
  tournament : LC := []
  round : LC := []
  side : LC := []
  opponent : LC := []
  judge : LC := []
  opensource : LC := []
deriving DecidableEq, Repr

/-- One extracted block (the dict appended by `flush`, src lines 619-623). -/
structure Block where
  arg_name : LC
  lines : List LC
  source : SourceMeta
deriving DecidableEq, Repr

/-- The mutable loop state of `extract_blocks` (src lines 610-614). -/
structure ExtState where
  blocks : List Block
  in_rebuttal : Bool
  in_defense : Bool
  current_name : Option LC
  current_lines : List LC
deriving DecidableEq, Repr

/-- The initial state of the extraction loop. -/
def initState : ExtState := ⟨[], false, false, none, []⟩

/-- `flush` (src lines 616-625): finalize the open block if it has a
truthy name and a nonempty line list, then reset name and lines. -/
def flushF (meta : SourceMeta) (s : ExtState) : ExtState :=
  let blocks :=
    match s.current_name with
    | some n =>
      if !n.isEmpty && !s.current_lines.isEmpty
      then s.blocks ++ [⟨n, s.current_lines, meta⟩]
      else s.blocks
    | none => s.blocks
  ⟨blocks, s.in_rebuttal, s.in_defense, none, []⟩

/-- The outcome of `_section_transition` when it is not `None`. -/
inductive Transition
  | defense
  | rebuttal
  | constructive
deriving DecidableEq, Repr

/-- `_section_transition` (src lines 627-645): AT: patterns take
priority and yield `None`. -/
def section_transition (t : LC) : Option Transition :=
  if (matchATPre t).isSome || (matchA2NC t).isSome then none
  else if defenseMatch t then some .defense
  else if rebuttalMatch t then some .rebuttal
  else if constructiveMatch t then some .constructive
  else none

/-- The H4 card sub-header markup
(src line 717): `f'<font size="10"><b>{safe}</b></font>'`. -/
def cardLine (t : LC) : LC :=
  str "<font size=" ++ [Char.ofNat 34] ++ str "10" ++ [Char.ofNat 34]
    ++ str "><b>" ++ xml_escape t ++ str "</b></font>"

/-- One iteration of the paragraph loop of `extract_blocks`
(src lines 647-732), with the `continue` statements rendered as nested
alternatives in source order. -/
def extractStep (meta : SourceMeta) (s : ExtState) (p : Para) : ExtState :=
  let text := pyStrip (paraText p)
  if text.isEmpty then s else
  let level := heading_level p
  let transition := if level.isSome then section_transition text else none
  match transition with
  | some .defense => { flushF meta s with in_rebuttal := true, in_defense := true }
  | some .rebuttal => { flushF meta s with in_rebuttal := true, in_defense := false }
  | some .constructive => { flushF meta s with in_rebuttal := false, in_defense := false }
  | none =>
    if level.isNone && !s.in_rebuttal && rebuttalFull text then
      { flushF meta s with in_rebuttal := true, in_defense := false }
    else if level.isNone && !s.in_rebuttal && constructiveMatch text then
      { flushF meta s with in_rebuttal := false, in_defense := false }
    else if !s.in_rebuttal then s
    else if level = some 2 ∨ level = some 3 then
      match try_get_block_name text with
      | some arg => { flushF meta s with current_name := some arg }
      | none =>
        if s.in_defense then
          let name := cleanDefName text
          if !name.isEmpty then { flushF meta s with current_name := some name }
          else s
        else s
    else if level = some 4 then
      if s.in_defense then
        let name := cleanDefName text
        if !name.isEmpty then { flushF meta s with current_name := some name }
        else s
      else if s.current_name.isSome then
        { s with current_lines := s.current_lines ++ [cardLine text] }
      else s
    else if level.isNone then
      match try_get_block_name text with
      | some arg => { flushF meta s with current_name := some arg }
      | none =>
        if s.current_name.isSome then
          let rich := para_to_rich p
          if !(pyStrip rich).isEmpty then
            { s with current_lines := s.current_lines ++ [rich] }
          else s
        else s
    else s

/-- `extract_blocks` (src lines 572-735) on an already-parsed paragraph
list: fold the loop body over the paragraphs, then the final `flush`. -/
def extract_blocks (paras : List Para) (meta : SourceMeta) : List Block :=
  (flushF meta (paras.foldl (extractStep meta) initState)).blocks

/-! ## Argument grouping `group_by_argument`

Python dicts preserve insertion order, so both `raw` (a `defaultdict`)
and `canonical` are modelled as association lists; `sorted` is stable,
modelled by a stable insertion sort. -/

/-- First-match association lookup (`dict` access). -/
def lookupA (k : LC) : List (LC × List Block) → Option (List Block)
  | [] => none
  | (k', v) :: rest => if k' = k then some v else lookupA k rest

/-- `raw[name].append(b)`: extend the list stored under an existing key,
in place. -/
def updApp (k : LC) (b : Block) : List (LC × List Block) → List (LC × List Block)
  | [] => []
  | (k', v) :: rest =>
    if k' = k then (k', v ++ [b]) :: rest else (k', v) :: updApp k b rest

/-- One iteration of the `raw` bucket loop (src lines 746-748): a
`defaultdict(list)` appends under the existing key or creates a new
entry at the end. -/
def addBlk (st : List (LC × List Block)) (b : Block) : List (LC × List Block) :=
  if (lookupA b.arg_name st).isSome then updApp b.arg_name b st
  else st ++ [(b.arg_name, [b])]

/-- The `raw` buckets (src lines 746-748). -/
def rawBuckets (l : List Block) : List (LC × List Block) := l.foldl addBlk []

/-- Stable descending insertion: `x` goes after every earlier element
with a strictly larger measure and before the rest (ties keep the
earlier element first, as Python's stable `sorted` does). -/
def ssortIns {α : Type} (f : α → Nat) (x : α) : List α → List α
  | [] => [x]
  | y :: ys => if f y > f x then y :: ssortIns f x ys else x :: y :: ys

/-- `sorted(·, key=lambda k: -f(k))`: stable sort, descending by `f`. -/
def ssortByDesc {α : Type} (f : α → Nat) : List α → List α
  | [] => []
  | x :: xs => ssortIns f x (ssortByDesc f xs)

/-- `nk in ck or ck in nk` (src line 755). -/
def substrRel (a b : LC) : Bool := isSubstr a b || isSubstr b a

/-- The inner canonical-key loop (src lines 753-761): find the first
canonical entry whose normalized name is in substring relation with the
incoming key; on a match, either rename (pop the entry and append the
merged bucket at the end under the incoming key, when the incoming
bucket is strictly larger) or extend the entry in place.  `none` means
no canonical key matched (`placed` stays false). -/
def placeInto (key : LC) (bkt : List Block) :
    List (LC × List Block) → Option (List (LC × List Block))
  | [] => none
  | (ck, lst) :: rest =>
    if substrRel (normalizeName key) (normalizeName ck) then
      if bkt.length > lst.length
      then some (rest ++ [(key, lst ++ bkt)])
      else some ((ck, lst ++ bkt) :: rest)
    else (placeInto key bkt rest).map (fun r => (ck, lst) :: r)

/-- One iteration of the outer key loop (src lines 751-763). -/
def groupStep (raw : List (LC × List Block)) (st : List (LC × List Block))
    (key : LC) : List (LC × List Block) :=
  let bkt := (lookupA key raw).getD []
  match placeInto key bkt st with
  | some st' => st'
  | none => st ++ [(key, bkt)]

/-- `group_by_argument` (src lines 745-765). -/
def group_by_argument (all_blocks : List Block) : List (LC × List Block) :=
  let raw := rawBuckets all_blocks
  let keys := ssortByDesc (fun k : LC => k.length) (raw.map Prod.fst)
  let canonical := keys.foldl (groupStep raw) []
  ssortByDesc (fun e : LC × List Block => e.2.length) canonical

/-- All blocks of a grouping result, in output order (the concatenation
of the group lists). -/
def flattenGroups (g : List (LC × List Block)) : List Block :=
  (g.map Prod.snd).flatten

/-! ## Side partitioning (src lines 1034-1050 in `main`) -/

/-- The accumulating pass over `all_blocks`: `side == "A"` goes to the
AFF list, `side == "N"` to the NEG list, anything else to the
unknown-side list (`side` is uppercased first). -/
def splitSidesAux (acc : List Block × List Block × List Block) (b : Block) :
    List Block × List Block × List Block :=
  let side := toUpperL b.source.side
  if side = str "A" then (acc.1 ++ [b], acc.2.1, acc.2.2)
  else if side = str "N" then (acc.1, acc.2.1 ++ [b], acc.2.2)
  else (acc.1, acc.2.1, acc.2.2 ++ [b])

/-- The side partition of `main`: the two block lists handed to the
`AT: NEG` / `AT: AFF` pipelines and the surfaced count of blocks with
unknown side data (`len(unk_blocks)`, printed as a warning; `0` when
the unknown list is empty and no warning is printed). -/
def splitSides (l : List Block) : List Block × List Block × Nat :=
  let t := l.foldl splitSidesAux ([], [], [])
  if !t.2.2.isEmpty then (t.1 ++ t.2.2, t.2.1 ++ t.2.2, t.2.2.length)
  else (t.1, t.2.1, 0)

/-! ## Spec-modelled definitions

Two notions the specification describes that have no counterpart in the
source are modelled here from the spec's words, for comparison. -/

/-- Modelled from the spec: the content fingerprint of §4.4/§3 — "hash
of source path + argument name + a fixed-length prefix of concatenated
line text".  No fingerprint computation exists anywhere in
`src/Caselistscrapper.py`; the hash is modelled as the (injective)
tuple itself, with a fixed prefix window of 400 characters. -/
def fingerprint (b : Block) : LC × LC × LC :=
  (b.source.opensource, b.arg_name, (b.lines.flatten).take 400)

/-- Modelled from the spec: the two-level emphasis-attribute resolution
of §4.1/§9 — "check the direct level first, falling back to the next
level, never simply defaulting to false when the direct level is
unset".  The source instead computes `bool(run.bold)`, which maps an
unset (`None`) direct attribute straight to `False`. -/
def resolveAttr (direct : Option Bool) (inherited : Bool) : Bool :=
  direct.getD inherited

/-- Modelled from the spec: `_run_tier` as it would behave with the
two-level resolution of §4.1, given the inherited paragraph/style
values of the two attributes. -/
def run_tier_resolved (r : Run) (inhBold inhUnderline : Bool) : LC :=
  let bold := resolveAttr r.bold inhBold
  let underline := resolveAttr r.underline inhUnderline
  if bold && underline then str "read"
  else if underline then str "context"
  else str "filler"

/-! ## Lemmas about the fragment loop -/

/-- Concatenated fragment text. -/
def fragText (F : List Frag) : LC := (F.map Frag.text).flatten

/-- Past the citation window (`ce ≤ pos`), every run is rendered by the
normal rule and the fragment text is the run text. -/
theorem fragsLoop_after (ce : Nat) (rs : List Run) : ∀ (pos : Nat), ce ≤ pos →
    fragText (fragsLoop ce pos rs) = (rs.map Run.text).flatten ∧
    ∀ f ∈ fragsLoop ce pos rs,
      f.size = if f.underline || f.hlBg.isSome then SZ_READ else SZ_FILLER := by
  induction rs with
  | nil => intro pos _; simp [fragsLoop, fragText]
  | cons r rs ih =>
    intro pos h
    by_cases he : r.text.isEmpty
    · have ht : r.text = [] := List.isEmpty_iff.mp he
      have := ih pos h
      simp only [fragsLoop, he, if_true]
      simpa [ht] using this
    · have hcond : ¬(0 < ce ∧ pos < ce) := by omega
      have := ih (pos + r.text.length) (by omega)
      simp only [fragsLoop, he, if_false, if_neg hcond, Bool.false_eq_true]
      constructor
      · simp [fragText] at this ⊢
        exact this.1
      · intro f hf
        rcases List.mem_cons.mp hf with h1 | h2
        · subst h1; rfl
        · exact this.2 f h2

/-- Inside the citation window (`pos ≤ ce`, `0 < ce`), the fragment list
splits at the citation boundary: a prefix of forced-bold READ fragments
covering exactly the first `ce - pos` characters, then normally
classified fragments covering the rest. -/
theorem fragsLoop_before (ce : Nat) (hce : 0 < ce) (rs : List Run) :
    ∀ (pos : Nat), pos ≤ ce →
    ∃ F1 F2, fragsLoop ce pos rs = F1 ++ F2 ∧
      fragText F1 = ((rs.map Run.text).flatten).take (ce - pos) ∧
      (∀ f ∈ F1, f.bold = true ∧ f.underline = false ∧ f.size = SZ_READ) ∧
      fragText F2 = ((rs.map Run.text).flatten).drop (ce - pos) ∧
      (∀ f ∈ F2,
        f.size = if f.underline || f.hlBg.isSome then SZ_READ else SZ_FILLER) := by
  induction rs with
  | nil =>
    intro pos _
    exact ⟨[], [], by simp [fragsLoop, fragText]⟩
  | cons r rs ih =>
    intro pos hpos
    by_cases he : r.text.isEmpty
    · have ht : r.text = [] := List.isEmpty_iff.mp he
      obtain ⟨F1, F2, h1, h2, h3, h4, h5⟩ := ih pos hpos
      refine ⟨F1, F2, ?_, ?_, h3, ?_, h5⟩
      · simp only [fragsLoop, he, if_true]; exact h1
      · simpa [ht] using h2
      · simpa [ht] using h4
    · have htne : r.text ≠ [] := fun h => he (by simp [h])
      have htlen : 0 < r.text.length := List.length_pos.mpr htne
      by_cases hlt : pos < ce
      · -- the run starts inside the citation window
        have hcond : 0 < ce ∧ pos < ce := ⟨hce, hlt⟩
        by_cases hsplit : ce - pos ≤ r.text.length
        · -- the citation boundary falls inside (or at the end of) this run
          have hmin : min (ce - pos) r.text.length = ce - pos := Nat.min_eq_left hsplit
          have hpne : ¬(r.text.take (min (ce - pos) r.text.length)).isEmpty := by
            rw [List.isEmpty_iff]
            intro hh
            have hlen := congrArg List.length hh
            rw [List.length_take] at hlen
            simp only [List.length_nil] at hlen
            omega
          obtain ⟨hA1, hA2⟩ := fragsLoop_after ce rs (pos + r.text.length) (by omega)
          by_cases hre : (r.text.drop (min (ce - pos) r.text.length)).isEmpty
          · -- the run ends exactly at the boundary
            refine ⟨[⟨r.text.take (min (ce - pos) r.text.length), true, false, hlBgOf r, SZ_READ⟩],
                    fragsLoop ce (pos + r.text.length) rs, ?_, ?_, ?_, ?_, ?_⟩
            · simp only [fragsLoop, he, if_false, if_pos hcond, hpne, hre, Bool.false_eq_true]
              simp
            · have hrt : r.text.drop (ce - pos) = [] := by
                rw [hmin] at hre; exact List.isEmpty_iff.mp hre
              have : r.text.length = ce - pos := by
                have := List.drop_eq_nil_iff.mp hrt; omega
              simp [fragText, hmin, List.take_append_eq_append_take, this]
            · intro f hf
              simp at hf
              subst hf
              exact ⟨rfl, rfl, rfl⟩
            · rw [hA1]
              have hrt : r.text.drop (ce - pos) = [] := by
                rw [hmin] at hre; exact List.isEmpty_iff.mp hre
              have hlen : r.text.length = ce - pos := by
                have := List.drop_eq_nil_iff.mp hrt; omega
              simp [List.drop_append_eq_append_drop, hlen]
            · exact hA2
          · -- the run properly crosses the boundary
            refine ⟨[⟨r.text.take (min (ce - pos) r.text.length), true, false, hlBgOf r, SZ_READ⟩],
                    ⟨r.text.drop (min (ce - pos) r.text.length), r.bold.getD false,
                      r.underline.getD false, hlBgOf r,
                      if r.underline.getD false || (hlBgOf r).isSome then SZ_READ else SZ_FILLER⟩
                      :: fragsLoop ce (pos + r.text.length) rs, ?_, ?_, ?_, ?_, ?_⟩
            · simp only [fragsLoop, he, if_false, if_pos hcond, hpne, hre, Bool.false_eq_true]
              simp
            · have h0 : ce - pos - r.text.length = 0 := by omega
              simp [fragText, hmin, List.take_append_eq_append_take, h0]
            · intro f hf
              simp at hf
              subst hf
              exact ⟨rfl, rfl, rfl⟩
            · simp only [fragText, List.map_cons, List.flatten_cons] at hA1 ⊢
              rw [hA1, hmin]
              rw [List.drop_append_eq_append_drop]
              congr 1
              have : ce - pos - r.text.length = 0 := by omega
              simp [this]
            · intro f hf
              rcases List.mem_cons.mp hf with h1 | h2
              · subst h1; rfl
              · exact hA2 f h2
        · -- the whole run lies strictly inside the citation window
          push_neg at hsplit
          have hmin : min (ce - pos) r.text.length = r.text.length :=
            Nat.min_eq_right (by omega)
          have hpne : ¬(r.text.take (min (ce - pos) r.text.length)).isEmpty := by
            rw [List.isEmpty_iff]
            intro hh
            have hlen := congrArg List.length hh
            rw [List.length_take] at hlen
            simp only [List.length_nil] at hlen
            omega
          have hre : (r.text.drop (min (ce - pos) r.text.length)).isEmpty := by
            rw [hmin]; simp
          obtain ⟨F1, F2, h1, h2, h3, h4, h5⟩ := ih (pos + r.text.length) (by omega)
          refine ⟨⟨r.text.take (min (ce - pos) r.text.length), true, false, hlBgOf r, SZ_READ⟩ :: F1,
                  F2, ?_, ?_, ?_, ?_, h5⟩
          · simp only [fragsLoop, he, if_false, if_pos hcond, hpne, hre, Bool.false_eq_true]
            simp [h1]
          · simp only [fragText, List.map_cons, List.flatten_cons] at h2 ⊢
            rw [h2, hmin, List.take_append_eq_append_take]
            congr 1
            · simp
              omega
            · congr 1
              omega
          · intro f hf
            rcases List.mem_cons.mp hf with h1' | h2'
            · subst h1'; exact ⟨rfl, rfl, rfl⟩
            · exact h3 f h2'
          · simp only [List.map_cons, List.flatten_cons]
            rw [h4, List.drop_append_eq_append_drop]
            have hceq : ce - pos - r.text.length = ce - (pos + r.text.length) := by omega
            have h0 : r.text.drop (ce - pos) = [] := by
              apply List.drop_eq_nil_of_le; omega
            rw [h0, hceq]
            simp
      · -- pos = ce: the window is already exhausted
        have hpe : pos = ce := by omega
        obtain ⟨hA1, hA2⟩ := fragsLoop_after ce (r :: rs) pos (by omega)
        refine ⟨[], fragsLoop ce pos (r :: rs), by simp, ?_, by simp, ?_, hA2⟩
        · simp [fragText, hpe]
        · rw [hA1, hpe]
          simp

/-! ## Claims about run classification (C2, C3) -/

/-- **C2, counterexample.**  A highlighted run with no bold/underline of
its own is *not* rendered bold+underlined: `_para_to_rich` emits it at
READ size but with its own (absent) bold/underline markup, and
`_run_tier` classifies it `filler`, not `read` — highlight never
overrides the emphasis flags. -/
theorem claim2_counterexample :
    run_tier ⟨str "x", none, none, some (str "YELLOW")⟩ = str "filler" ∧
    paraFrags ⟨str "Normal", [⟨str "x", none, none, some (str "YELLOW")⟩]⟩ =
      [⟨str "x", false, false, some (str "#cce8ff"), SZ_READ⟩] := by
  constructor
  · decide
  · decide

/-- **C2, amended.**  For a run rendered outside a citation window:
a highlighted (mapped-color) run is rendered at READ size with its own
bold/underline flags preserved; bold+underline (no highlight needed)
yields READ size with bold+underline markup; underline only yields
CONTEXT size, underlined, not bold; neither underline nor highlight
yields FILLER size. -/
theorem claim2_theorem (sn : LC) (r : Run)
    (hm : matchCite (pyLstrip r.text) = none) (hne : r.text ≠ []) :
    ∃ f : Frag, paraFrags ⟨sn, [r]⟩ = [f] ∧
      f.text = r.text ∧ f.bold = r.bold.getD false ∧
      f.underline = r.underline.getD false ∧ f.hlBg = hlBgOf r ∧
      ((hlBgOf r).isSome → f.size = SZ_READ) ∧
      (r.underline.getD false = true → f.size = SZ_READ) ∧
      (r.underline.getD false = true → r.bold.getD false = false →
        f.size = SZ_CONTEXT ∧ f.bold = false ∧ f.underline = true) ∧
      (r.underline.getD false = false → hlBgOf r = none → f.size = SZ_FILLER) := by
  have hne' : ¬ r.text.isEmpty := by simpa [List.isEmpty_iff] using hne
  have hce : citeEnd (paraText ⟨sn, [r]⟩) = 0 := by
    simp [citeEnd, paraText, hm]
  have h1 : paraFrags ⟨sn, [r]⟩ =
      [⟨r.text, r.bold.getD false, r.underline.getD false, hlBgOf r,
        if r.underline.getD false || (hlBgOf r).isSome then SZ_READ else SZ_FILLER⟩] := by
    unfold paraFrags
    rw [hce]
    simp [fragsLoop, hne']
  refine ⟨_, h1, rfl, rfl, rfl, rfl, ?_, ?_, ?_, ?_⟩
  · intro h; simp [h]
  · intro h; simp [h]
  · intro h hb; simp [h, hb, SZ_CONTEXT, SZ_READ]
  · intro h hh; simp [h, hh]

/-- **C2, witness** for the amended theorem, at a bold+underlined run. -/
theorem claim2_witness :
    matchCite (pyLstrip (str "evidence")) = none ∧ (str "evidence" ≠ ([] : LC)) ∧
    (∃ f : Frag,
      paraFrags ⟨str "Normal", [⟨str "evidence", some true, some true, none⟩]⟩ = [f] ∧
      f.text = str "evidence" ∧
      f.bold = (some true : Option Bool).getD false ∧
      f.underline = (some true : Option Bool).getD false ∧
      f.hlBg = hlBgOf ⟨str "evidence", some true, some true, none⟩ ∧
      ((hlBgOf ⟨str "evidence", some true, some true, none⟩).isSome → f.size = SZ_READ) ∧
      ((some true : Option Bool).getD false = true → f.size = SZ_READ) ∧
      ((some true : Option Bool).getD false = true →
        (some true : Option Bool).getD false = false →
        f.size = SZ_CONTEXT ∧ f.bold = false ∧ f.underline = true) ∧
      ((some true : Option Bool).getD false = false →
        hlBgOf ⟨str "evidence", some true, some true, none⟩ = none →
        f.size = SZ_FILLER)) :=
  ⟨by decide, by decide,
   claim2_theorem (str "Normal") ⟨str "evidence", some true, some true, none⟩
     (by decide) (by decide)⟩

/-- **C3.**  The classifier does *not* resolve an unset attribute by
inheritance: at a run whose direct bold is unset (`None`) under a style
whose inherited bold is `true`, `bool(run.bold)` coerces the unset
attribute straight to `false` and `_run_tier` answers `context`,
whereas the two-level resolution the spec requires answers `read`. -/
theorem claim3_theorem :
    (⟨str "x", none, some true, none⟩ : Run).bold = none ∧
    run_tier ⟨str "x", none, some true, none⟩ = str "context" ∧
    run_tier_resolved ⟨str "x", none, some true, none⟩ true false = str "read" ∧
    resolveAttr none true ≠ (none : Option Bool).getD false := by
  refine ⟨rfl, by decide, by decide, by decide⟩

/-! ## Claim C4: the citation-token override -/

/-- **C4, counterexample.**  The paragraph text `Hendricks '21 argues
that markets fail.` begins with an author token and a two-digit year
preceded by an apostrophe, but `_CITE_TAG_RE` has no apostrophe in its
year pattern: no override fires and the whole run is rendered as one
plain FILLER fragment — no bold READ prefix exists. -/
theorem claim4_counterexample :
    paraFrags ⟨str "Normal",
        [⟨str "Hendricks " ++ [Char.ofNat 39] ++ str "21 argues that markets fail.",
          none, none, none⟩]⟩ =
      [⟨str "Hendricks " ++ [Char.ofNat 39] ++ str "21 argues that markets fail.",
        false, false, none, SZ_FILLER⟩] := by
  decide

/-- **C4, amended** (the year may not be preceded by an apostrophe):
whenever `_CITE_TAG_RE` matches the paragraph's (stripped) leading text,
the fragment list splits at the citation boundary `cite_end`: the
fragments before it carry exactly the first `cite_end` characters and
are all forced bold, not underlined, at READ size, regardless of their
runs' own formatting (a run crossing the boundary is split in two); the
fragments after it carry the remaining characters and follow the normal
sizing rule. -/
theorem claim4_theorem (p : Para) (h : 0 < citeEnd (paraText p)) :
    ∃ F1 F2, paraFrags p = F1 ++ F2 ∧
      fragText F1 = (paraText p).take (citeEnd (paraText p)) ∧
      (∀ f ∈ F1, f.bold = true ∧ f.underline = false ∧ f.size = SZ_READ) ∧
      fragText F2 = (paraText p).drop (citeEnd (paraText p)) ∧
      (∀ f ∈ F2,
        f.size = if f.underline || f.hlBg.isSome then SZ_READ else SZ_FILLER) := by
  have := fragsLoop_before (citeEnd (paraText p)) h p.runs 0 (Nat.zero_le _)
  simpa [paraFrags, paraText] using this

/-- The paragraph of the spec's citation-override scenario. -/
def hendricksPara : Para :=
  ⟨str "Normal", [⟨str "Hendricks 21 argues that markets fail.", none, none, none⟩]⟩

/-- **C4, witness**: on `Hendricks 21 argues that markets fail.` the
override fires and produces exactly the two fragments of the scenario:
`Hendricks 21` bold at READ size, then the remainder rendered by its
own (plain) formatting. -/
theorem claim4_witness :
    0 < citeEnd (paraText hendricksPara) ∧
    (∃ F1 F2, paraFrags hendricksPara = F1 ++ F2 ∧
      fragText F1 = (paraText hendricksPara).take (citeEnd (paraText hendricksPara)) ∧
      (∀ f ∈ F1, f.bold = true ∧ f.underline = false ∧ f.size = SZ_READ) ∧
      fragText F2 = (paraText hendricksPara).drop (citeEnd (paraText hendricksPara)) ∧
      (∀ f ∈ F2,
        f.size = if f.underline || f.hlBg.isSome then SZ_READ else SZ_FILLER)) ∧
    paraFrags hendricksPara =
      [⟨str "Hendricks 21", true, false, none, SZ_READ⟩,
       ⟨str " argues that markets fail.", false, false, none, SZ_FILLER⟩] :=
  ⟨by decide, claim4_theorem hendricksPara (by decide), by decide⟩

/-! ## Claim C9: side partitioning -/

/-- The uppercased side field consulted by the partition loop. -/
def sideOf (b : Block) : LC := toUpperL b.source.side

/-- `side == "A"`. -/
def isSideA (b : Block) : Bool := decide (sideOf b = str "A")

/-- `side == "N"` (reached only past the `"A"` test). -/
def isSideN (b : Block) : Bool := !isSideA b && decide (sideOf b = str "N")

/-- Unknown side: neither `"A"` nor `"N"`. -/
def isSideU (b : Block) : Bool := !isSideA b && !decide (sideOf b = str "N")

/-- The two canonical side strings differ. -/
theorem strN_ne_strA : ¬ (str "N" = str "A") := by decide

/-- The fold of the side loop produces the three filters, appended to
the incoming accumulators. -/
theorem splitSidesAux_foldl (l : List Block) : ∀ (a b c : List Block),
    l.foldl splitSidesAux (a, b, c) =
      (a ++ l.filter isSideA, b ++ l.filter isSideN, c ++ l.filter isSideU) := by
  induction l with
  | nil => intro a b c; simp
  | cons x xs ih =>
    intro a b c
    by_cases hA : sideOf x = str "A"
    · have h1 : splitSidesAux (a, b, c) x = (a ++ [x], b, c) := by
        simp [splitSidesAux, sideOf] at hA ⊢
        simp [hA]
      simp only [List.foldl_cons, h1, ih]
      simp [List.filter_cons, isSideA, isSideN, isSideU, hA]
    · by_cases hN : sideOf x = str "N"
      · have h1 : splitSidesAux (a, b, c) x = (a, b ++ [x], c) := by
          simp [splitSidesAux, sideOf] at hA hN ⊢
          simp [hA, hN, strN_ne_strA]
        simp only [List.foldl_cons, h1, ih]
        simp [List.filter_cons, isSideA, isSideN, isSideU, hA, hN, strN_ne_strA]
      · have h1 : splitSidesAux (a, b, c) x = (a, b, c ++ [x]) := by
          simp [splitSidesAux, sideOf] at hA hN ⊢
          simp [hA, hN]
        simp only [List.foldl_cons, h1, ih]
        simp [List.filter_cons, isSideA, isSideN, isSideU, hA, hN]

/-- **C9.**  The side partition: blocks with side `"A"` land in the
first output list, side `"N"` in the second, and every block whose
(uppercased) side is neither — unknown, missing, or empty — is added to
*both* lists, never dropped; the surfaced warning count is exactly the
number of unknown-side blocks. -/
theorem claim9_theorem (l : List Block) :
    (splitSides l).1 = l.filter isSideA ++ l.filter isSideU ∧
    (splitSides l).2.1 = l.filter isSideN ++ l.filter isSideU ∧
    (splitSides l).2.2 = (l.filter isSideU).length ∧
    (∀ b ∈ l,
      (sideOf b = str "A" → b ∈ (splitSides l).1) ∧
      (sideOf b = str "N" → b ∈ (splitSides l).2.1) ∧
      (sideOf b ≠ str "A" → sideOf b ≠ str "N" →
        b ∈ (splitSides l).1 ∧ b ∈ (splitSides l).2.1)) := by
  have hf := splitSidesAux_foldl l [] [] []
  have h1 : (splitSides l).1 = l.filter isSideA ++ l.filter isSideU := by
    unfold splitSides
    rw [hf]
    by_cases hu : (l.filter isSideU).isEmpty
    · have he := List.isEmpty_iff.mp hu
      simp [hu, he]
    · simp [hu]
  have h2 : (splitSides l).2.1 = l.filter isSideN ++ l.filter isSideU := by
    unfold splitSides
    rw [hf]
    by_cases hu : (l.filter isSideU).isEmpty
    · have he := List.isEmpty_iff.mp hu
      simp [hu, he]
    · simp [hu]
  have h3 : (splitSides l).2.2 = (l.filter isSideU).length := by
    unfold splitSides
    rw [hf]
    by_cases hu : (l.filter isSideU).isEmpty
    · have he := List.isEmpty_iff.mp hu
      simp [hu, he]
    · simp [hu]
  refine ⟨h1, h2, h3, ?_⟩
  intro b hb
  refine ⟨fun hA => ?_, fun hN => ?_, fun hA hN => ?_⟩
  · rw [h1]
    exact List.mem_append_left _ (List.mem_filter.mpr ⟨hb, by simp [isSideA, hA]⟩)
  · rw [h2]
    by_cases hA : sideOf b = str "A"
    · exact absurd (hA.symm.trans hN) (by decide)
    · exact List.mem_append_left _
        (List.mem_filter.mpr ⟨hb, by simp [isSideN, isSideA, hA, hN, strN_ne_strA]⟩)
  · have hU : isSideU b = true := by simp [isSideU, isSideA, hA, hN]
    constructor
    · rw [h1]; exact List.mem_append_right _ (List.mem_filter.mpr ⟨hb, hU⟩)
    · rw [h2]; exact List.mem_append_right _ (List.mem_filter.mpr ⟨hb, hU⟩)

/-- The empty-side block of the spec's side-partition scenario. -/
def emptySideBlock : Block := ⟨str "z", [str "line"], { side := str "" }⟩

/-- **C9, witness**: a single block with empty-string side appears in
both partitions and the unknown-side counter equals 1. -/
theorem claim9_witness :
    emptySideBlock ∈ [emptySideBlock] ∧
    (sideOf emptySideBlock ≠ str "A" → sideOf emptySideBlock ≠ str "N" →
      emptySideBlock ∈ (splitSides [emptySideBlock]).1 ∧
      emptySideBlock ∈ (splitSides [emptySideBlock]).2.1) ∧
    (splitSides [emptySideBlock]).2.2 = 1 :=
  ⟨by decide,
   fun h1 h2 =>
     ((claim9_theorem [emptySideBlock]).2.2.2 emptySideBlock (by decide)).2.2 h1 h2,
   by decide⟩

/-! ## Claim C5: every emitted block has a name and lines -/

/-- The invariant: every block in the list has a nonempty argument name
and a nonempty line list. -/
def blocksOK (bs : List Block) : Prop :=
  ∀ b ∈ bs, b.arg_name ≠ [] ∧ b.lines ≠ []

/-- `flush` preserves the invariant: it appends the open block only
under its name-and-lines guard. -/
theorem flushF_blocksOK (meta : SourceMeta) (s : ExtState)
    (h : blocksOK s.blocks) : blocksOK (flushF meta s).blocks := by
  unfold flushF
  cases hn : s.current_name with
  | none => exact h
  | some n =>
    by_cases hg : !n.isEmpty && !s.current_lines.isEmpty
    · simp only [hg, if_true]
      intro b hb
      rcases List.mem_append.mp hb with h1 | h2
      · exact h b h1
      · have hb' : b = ⟨n, s.current_lines, meta⟩ := by simpa using h2
        subst hb'
        simp only [Bool.and_eq_true, Bool.not_eq_true'] at hg
        exact ⟨by simpa [List.isEmpty_iff] using hg.1,
               by simpa [List.isEmpty_iff] using hg.2⟩
    · simp only [hg, if_false]
      exact h

/-- Each loop iteration either leaves the output list unchanged or
passes it through `flush`: these are the only two ways `blocks` moves. -/
theorem extractStep_blocks (meta : SourceMeta) (s : ExtState) (p : Para) :
    (extractStep meta s p).blocks = s.blocks ∨
    (extractStep meta s p).blocks = (flushF meta s).blocks := by
  simp only [extractStep]
  repeat' split
  all_goals first
    | exact Or.inl rfl
    | exact Or.inr rfl

/-- **C5.**  Every block in the extractor's output has a nonempty
argument name and a nonempty line list: `flush` appends the open block
only when both are nonempty and otherwise discards it silently, so no
empty-name or empty-lines block is ever observable. -/
theorem claim5_theorem (paras : List Para) (meta : SourceMeta) :
    ∀ b ∈ extract_blocks paras meta, b.arg_name ≠ [] ∧ b.lines ≠ [] := by
  have main : ∀ (ps : List Para) (s : ExtState), blocksOK s.blocks →
      blocksOK ((ps.foldl (extractStep meta) s)).blocks := by
    intro ps
    induction ps with
    | nil => intro s h; exact h
    | cons q qs ih =>
      intro s h
      apply ih
      rcases extractStep_blocks meta s q with he | he
      · intro b hb; rw [he] at hb; exact h b hb
      · intro b hb; rw [he] at hb; exact flushF_blocksOK meta s h b hb
  have h0 : blocksOK (initState).blocks := by
    intro b hb; simp [initState] at hb
  exact flushF_blocksOK meta _ (main paras initState h0)

/-- A two-paragraph rebuttal document with one block. -/
def c5doc : List Para :=
  [⟨str "Heading 1", [⟨str "2AC", none, none, none⟩]⟩,
   ⟨str "Heading 2", [⟨str "AT: Econ", none, none, none⟩]⟩,
   ⟨str "Normal", [⟨str "card text", none, none, none⟩]⟩]

/-- **C5, witness**: the invariant applied to a block the extractor
actually emits. -/
theorem claim5_witness :
    (⟨str "Econ", [str "<font size=" ++ [Char.ofNat 34] ++ str "8" ++ [Char.ofNat 34]
        ++ str " name=" ++ [Char.ofNat 34] ++ str "Calibri" ++ [Char.ofNat 34]
        ++ str ">card text</font>"], {}⟩ : Block) ∈ extract_blocks c5doc {} ∧
    (⟨str "Econ", [str "<font size=" ++ [Char.ofNat 34] ++ str "8" ++ [Char.ofNat 34]
        ++ str " name=" ++ [Char.ofNat 34] ++ str "Calibri" ++ [Char.ofNat 34]
        ++ str ">card text</font>"], {}⟩ : Block).arg_name ≠ [] :=
  ⟨by decide,
   (claim5_theorem c5doc {} _ (by decide)).1⟩

/-! ## Claim C6: block-name precedence over section transitions -/

/-- **C6, amended** (restricted to headings at levels 2-3, where the
source applies block-name detection): while in a rebuttal state, a
level-2/3 heading matching an explicit block-name pattern is never a
section transition; it flushes the open block and opens a new block
under the extracted name. -/
theorem claim6_theorem (meta : SourceMeta) (s : ExtState) (p : Para) (arg : LC)
    (hreb : s.in_rebuttal = true)
    (hlev : heading_level p = some 2 ∨ heading_level p = some 3)
    (harg : try_get_block_name (pyStrip (paraText p)) = some arg) :
    section_transition (pyStrip (paraText p)) = none ∧
    extractStep meta s p = { flushF meta s with current_name := some arg } := by
  have hat : ((matchATPre (pyStrip (paraText p))).isSome
      || (matchA2NC (pyStrip (paraText p))).isSome) = true := by
    unfold try_get_block_name at harg
    cases h1 : matchATPre (pyStrip (paraText p)) with
    | some n => simp [h1]
    | none =>
      cases h2 : matchA2NC (pyStrip (paraText p)) with
      | some n => simp [h2]
      | none => rw [h1, h2] at harg; simp at harg
  have hsec : section_transition (pyStrip (paraText p)) = none := by
    unfold section_transition
    simp only [hat, if_true]
  have htxt : (pyStrip (paraText p)).isEmpty = false := by
    cases hq : (pyStrip (paraText p)).isEmpty
    · rfl
    · exfalso
      have ht : pyStrip (paraText p) = [] := List.isEmpty_iff.mp hq
      rw [ht] at harg
      simp [try_get_block_name, matchATPre, matchA2NC, toLowerL,
        alt1Len, alt2Len, speechHead3, startsL, str] at harg
  rcases hlev with h | h <;>
    simp [extractStep, htxt, h, hsec, hreb, harg]

/-- **C6, witness** for the amended theorem, on a concrete open-block
state and the heading `2AC---AT: Illegal Betting`. -/
theorem claim6_witness :
    (⟨[], true, false, some (str "Old"), [str "x"]⟩ : ExtState).in_rebuttal = true ∧
    (heading_level ⟨str "Heading 3", [⟨str "2AC---AT: Illegal Betting", none, none, none⟩]⟩
        = some 2 ∨
     heading_level ⟨str "Heading 3", [⟨str "2AC---AT: Illegal Betting", none, none, none⟩]⟩
        = some 3) ∧
    try_get_block_name (pyStrip (paraText
        ⟨str "Heading 3", [⟨str "2AC---AT: Illegal Betting", none, none, none⟩]⟩))
      = some (str "Illegal Betting") ∧
    (section_transition (pyStrip (paraText
        ⟨str "Heading 3", [⟨str "2AC---AT: Illegal Betting", none, none, none⟩]⟩)) = none ∧
     extractStep {} ⟨[], true, false, some (str "Old"), [str "x"]⟩
        ⟨str "Heading 3", [⟨str "2AC---AT: Illegal Betting", none, none, none⟩]⟩ =
       { flushF {} ⟨[], true, false, some (str "Old"), [str "x"]⟩ with
           current_name := some (str "Illegal Betting") }) :=
  ⟨rfl, by decide, by decide,
   claim6_theorem {} ⟨[], true, false, some (str "Old"), [str "x"]⟩
     ⟨str "Heading 3", [⟨str "2AC---AT: Illegal Betting", none, none, none⟩]⟩
     (str "Illegal Betting") rfl (by decide) (by decide)⟩

/-- The document of the C6 counterexample: a level-4 heading matching
the explicit block-name pattern while a block is open. -/
def c6doc : List Para :=
  [⟨str "Heading 1", [⟨str "2AC", none, none, none⟩]⟩,
   ⟨str "Heading 2", [⟨str "AT: First", none, none, none⟩]⟩,
   ⟨str "Normal", [⟨str "body text", none, none, none⟩]⟩,
   ⟨str "Heading 4", [⟨str "AT: Second", none, none, none⟩]⟩,
   ⟨str "Normal", [⟨str "more text", none, none, none⟩]⟩]

/-- **C6, counterexample.**  The level-4 heading `AT: Second` matches
the explicit block-name pattern and is processed in a rebuttal state
with a block open, yet no block named `Second` is ever opened: the
heading is appended to the open block `First` as a card sub-header
line. -/
theorem claim6_counterexample :
    (matchATPre (str "AT: Second")).isSome = true ∧
    extract_blocks c6doc {} =
      [⟨str "First",
        [str "<font size=" ++ [Char.ofNat 34] ++ str "8" ++ [Char.ofNat 34]
          ++ str " name=" ++ [Char.ofNat 34] ++ str "Calibri" ++ [Char.ofNat 34]
          ++ str ">body text</font>",
         str "<font size=" ++ [Char.ofNat 34] ++ str "10" ++ [Char.ofNat 34]
          ++ str "><b>AT: Second</b></font>",
         str "<font size=" ++ [Char.ofNat 34] ++ str "8" ++ [Char.ofNat 34]
          ++ str " name=" ++ [Char.ofNat 34] ++ str "Calibri" ++ [Char.ofNat 34]
          ++ str ">more text</font>"], {}⟩] ∧
    ¬ ∃ b ∈ extract_blocks c6doc {}, b.arg_name = str "Second" := by
  refine ⟨by decide, by decide, by decide⟩

/-! ## Lemmas about the grouping engine -/

/-- The blocks of `l` with argument name `k` (the content of the raw
bucket under `k`). -/
def filterName (k : LC) (l : List Block) : List Block :=
  l.filter (fun b => decide (b.arg_name = k))

/-- `updApp` touches only the first entry with the given key. -/
theorem lookupA_updApp (k k' : LC) (b : Block) (st : List (LC × List Block)) :
    lookupA k (updApp k' b st) =
      if k = k' then (lookupA k st).map (fun v => v ++ [b]) else lookupA k st := by
  induction st with
  | nil => by_cases h : k = k' <;> simp [updApp, lookupA, h]
  | cons e rest ih =>
    obtain ⟨k0, v0⟩ := e
    by_cases hA : k0 = k'
    · subst hA
      by_cases hB : k0 = k
      · subst hB
        simp [updApp, lookupA]
      · have hB' : ¬ k = k0 := fun h => hB h.symm
        simp [updApp, lookupA, hB, hB']
    · by_cases hB : k0 = k
      · subst hB
        have hA' : ¬ k0 = k' := hA
        simp [updApp, lookupA, hA', lookupA_updApp]
      · have hB' : ¬ k = k0 := fun h => hB h.symm
        simp [updApp, lookupA, hA, hB, hB', ih]

/-- Lookup across an appended fresh entry. -/
theorem lookupA_append_single (k k' : LC) (v : List Block)
    (st : List (LC × List Block)) :
    lookupA k (st ++ [(k', v)]) =
      match lookupA k st with
      | some w => some w
      | none => if k = k' then some v else none := by
  induction st with
  | nil =>
    by_cases h : k = k'
    · subst h; simp [lookupA]
    · have h' : ¬ k' = k := fun hh => h hh.symm
      simp [lookupA, h, h']
  | cons e rest ih =>
    obtain ⟨k0, v0⟩ := e
    by_cases h : k0 = k <;> simp [lookupA, h, ih]

/-- The bucket fold, characterized: folding `addBlk` over `l` extends
the bucket under `k` by exactly the `k`-named blocks of `l`, in order. -/
theorem lookupA_foldl_addBlk (k : LC) (l : List Block) :
    ∀ (st : List (LC × List Block)),
    lookupA k (l.foldl addBlk st) =
      match lookupA k st with
      | some v => some (v ++ filterName k l)
      | none => if (filterName k l).isEmpty then none else some (filterName k l) := by
  induction l with
  | nil =>
    intro st
    cases h : lookupA k st <;> simp [filterName, h]
  | cons x xs ih =>
    intro st
    rw [List.foldl_cons, ih]
    by_cases hx : x.arg_name = k
    · have hfn : filterName k (x :: xs) = x :: filterName k xs := by
        simp [filterName, hx]
      have hab : addBlk st x =
          if (lookupA k st).isSome then updApp k x st else st ++ [(k, [x])] := by
        simp [addBlk, hx]
      cases h : lookupA k st with
      | some v =>
        have h1 : lookupA k (addBlk st x) = some (v ++ [x]) := by
          rw [hab, h]
          simp only [Option.isSome_some, if_true]
          rw [lookupA_updApp]
          simp [h]
        simp [h1, hfn, h]
      | none =>
        have h1 : lookupA k (addBlk st x) = some [x] := by
          rw [hab, h]
          simp only [Option.isSome_none, Bool.false_eq_true, if_false]
          rw [lookupA_append_single, h]
          simp
        simp [h1, hfn, h]
    · have hfn : filterName k (x :: xs) = filterName k xs := by
        simp [filterName, hx]
      have h1 : lookupA k (addBlk st x) = lookupA k st := by
        unfold addBlk
        by_cases hs : (lookupA x.arg_name st).isSome
        · rw [if_pos hs, lookupA_updApp, if_neg (fun hc : k = x.arg_name => hx hc.symm)]
        · rw [if_neg hs, lookupA_append_single]
          cases h : lookupA k st with
          | some v => rfl
          | none =>
            have hkc : ¬ k = x.arg_name := fun hc => hx hc.symm
            simp [hkc]
      rw [h1, hfn]

/-- `rawBuckets` lookup: the bucket under `k` is exactly the `k`-named
blocks, present exactly when there is at least one. -/
theorem lookupA_rawBuckets (k : LC) (l : List Block) :
    lookupA k (rawBuckets l) =
      if (filterName k l).isEmpty then none else some (filterName k l) := by
  have := lookupA_foldl_addBlk k l []
  simpa [rawBuckets, lookupA] using this

/-- A key is absent exactly when lookup fails. -/
theorem lookupA_eq_none_iff (k : LC) (st : List (LC × List Block)) :
    lookupA k st = none ↔ k ∉ st.map Prod.fst := by
  induction st with
  | nil => simp [lookupA]
  | cons e rest ih =>
    obtain ⟨k0, v0⟩ := e
    by_cases h : k0 = k
    · subst h; simp [lookupA]
    · have h' : ¬ k = k0 := fun hh => h hh.symm
      simp [lookupA, h, h', ih]

/-- `updApp` does not change the key list. -/
theorem updApp_keys (k : LC) (b : Block) (st : List (LC × List Block)) :
    (updApp k b st).map Prod.fst = st.map Prod.fst := by
  induction st with
  | nil => rfl
  | cons e rest ih =>
    obtain ⟨k0, v0⟩ := e
    by_cases h : k0 = k <;> simp [updApp, h, ih]

/-- The bucket fold keeps the key list duplicate-free and its members
are the keys already present plus the names occurring in `l`. -/
theorem rawBuckets_keys (l : List Block) :
    ∀ (st : List (LC × List Block)), (st.map Prod.fst).Nodup →
    ((l.foldl addBlk st).map Prod.fst).Nodup ∧
    (∀ k, k ∈ (l.foldl addBlk st).map Prod.fst ↔
      k ∈ st.map Prod.fst ∨ ∃ b ∈ l, b.arg_name = k) := by
  induction l with
  | nil => intro st h; simp [h]
  | cons x xs ih =>
    intro st h
    rw [List.foldl_cons]
    by_cases hs : (lookupA x.arg_name st).isSome
    · have hab : addBlk st x = updApp x.arg_name x st := by simp [addBlk, hs]
      have hkeys : (addBlk st x).map Prod.fst = st.map Prod.fst := by
        rw [hab, updApp_keys]
      have hmem : x.arg_name ∈ st.map Prod.fst := by
        by_contra hc
        rw [← lookupA_eq_none_iff] at hc
        rw [hc] at hs
        simp at hs
      obtain ⟨ih1, ih2⟩ := ih (addBlk st x) (by rw [hkeys]; exact h)
      refine ⟨ih1, fun k => ?_⟩
      rw [ih2 k, hkeys]
      constructor
      · rintro (hk | ⟨b, hb, hbk⟩)
        · exact Or.inl hk
        · exact Or.inr ⟨b, List.mem_cons_of_mem x hb, hbk⟩
      · rintro (hk | ⟨b, hb, hbk⟩)
        · exact Or.inl hk
        · rcases List.mem_cons.mp hb with hb1 | hb2
          · subst hb1; subst hbk; exact Or.inl hmem
          · exact Or.inr ⟨b, hb2, hbk⟩
    · have hab : addBlk st x = st ++ [(x.arg_name, [x])] := by simp [addBlk, hs]
      have hmem : x.arg_name ∉ st.map Prod.fst := by
        rw [← lookupA_eq_none_iff]
        cases hq : lookupA x.arg_name st with
        | none => rfl
        | some v => rw [hq] at hs; simp at hs
      have hkeys : (addBlk st x).map Prod.fst = st.map Prod.fst ++ [x.arg_name] := by
        rw [hab]; simp
      have hnodup : ((addBlk st x).map Prod.fst).Nodup := by
        rw [hkeys]
        refine List.Nodup.append h (List.nodup_singleton _) ?_
        intro a ha hb
        have ha' : a = x.arg_name := by simpa using hb
        subst ha'
        exact hmem ha
      obtain ⟨ih1, ih2⟩ := ih (addBlk st x) hnodup
      refine ⟨ih1, fun k => ?_⟩
      rw [ih2 k, hkeys]
      constructor
      · rintro (hk | ⟨b, hb, hbk⟩)
        · rcases List.mem_append.mp hk with h1 | h2
          · exact Or.inl h1
          · have : k = x.arg_name := by simpa using h2
            exact Or.inr ⟨x, List.mem_cons_self x xs, this.symm⟩
        · exact Or.inr ⟨b, List.mem_cons_of_mem x hb, hbk⟩
      · rintro (hk | ⟨b, hb, hbk⟩)
        · exact Or.inl (List.mem_append_left _ hk)
        · rcases List.mem_cons.mp hb with hb1 | hb2
          · subst hb1
            exact Or.inl (List.mem_append_right _ (by simp [hbk]))
          · exact Or.inr ⟨b, hb2, hbk⟩

/-- With duplicate-free keys, association-list membership and lookup
agree. -/
theorem lookupA_of_mem (k : LC) (v : List Block) :
    ∀ (st : List (LC × List Block)),
    (st.map Prod.fst).Nodup → (k, v) ∈ st → lookupA k st = some v := by
  intro st
  induction st with
  | nil => intro _ hm; simp at hm
  | cons e rest ih =>
    obtain ⟨k0, v0⟩ := e
    intro hnd hm
    rcases List.mem_cons.mp hm with h1 | h2
    · obtain ⟨hk, hv⟩ := Prod.ext_iff.mp h1
      simp only at hk hv
      subst hk; subst hv
      simp [lookupA]
    · have hknd : k0 ∉ rest.map Prod.fst := by
        simp only [List.map_cons, List.nodup_cons] at hnd
        exact hnd.1
      have hne : ¬ k0 = k := by
        intro hc
        subst hc
        exact hknd (List.mem_map.mpr ⟨(k0, v), h2, rfl⟩)
      have hnd' : (rest.map Prod.fst).Nodup := by
        simp only [List.map_cons, List.nodup_cons] at hnd
        exact hnd.2
      simp [lookupA, hne, ih hnd' h2]

/-- Stable insertion permutes. -/
theorem ssortIns_perm {α : Type} (f : α → Nat) (x : α) (l : List α) :
    (ssortIns f x l).Perm (x :: l) := by
  induction l with
  | nil => simp [ssortIns]
  | cons y ys ih =>
    unfold ssortIns
    by_cases h : f y > f x
    · simp only [h, if_true]
      exact (ih.cons y).trans (List.Perm.swap x y ys)
    · simp [h]

/-- The stable descending sort permutes. -/
theorem ssortByDesc_perm {α : Type} (f : α → Nat) (l : List α) :
    (ssortByDesc f l).Perm l := by
  induction l with
  | nil => simp [ssortByDesc]
  | cons x xs ih =>
    unfold ssortByDesc
    exact (ssortIns_perm f x _).trans (ih.cons x)

/-- Stable insertion preserves descending sortedness. -/
theorem ssortIns_sorted {α : Type} (f : α → Nat) (x : α) (l : List α)
    (h : l.Pairwise (fun a b => f b ≤ f a)) :
    (ssortIns f x l).Pairwise (fun a b => f b ≤ f a) := by
  induction l with
  | nil => simp [ssortIns]
  | cons y ys ih =>
    unfold ssortIns
    rcases List.pairwise_cons.mp h with ⟨hy, hys⟩
    by_cases hc : f y > f x
    · simp only [hc, if_true]
      refine List.pairwise_cons.mpr ⟨?_, ih hys⟩
      intro z hz
      rcases List.mem_cons.mp ((ssortIns_perm f x ys).mem_iff.mp hz) with h1 | h2
      · subst h1; omega
      · exact hy z h2
    · simp only [hc, if_false]
      refine List.pairwise_cons.mpr ⟨?_, h⟩
      intro z hz
      rcases List.mem_cons.mp hz with h1 | h2
      · subst h1; omega
      · exact le_trans (hy z h2) (by omega)

/-- The stable sort is descending-sorted. -/
theorem ssortByDesc_sorted {α : Type} (f : α → Nat) (l : List α) :
    (ssortByDesc f l).Pairwise (fun a b => f b ≤ f a) := by
  induction l with
  | nil => simp [ssortByDesc]
  | cons x xs ih =>
    unfold ssortByDesc
    exact ssortIns_sorted f x _ ih

/-- A successful `placeInto` adds exactly the incoming bucket to the
flattened table contents (up to order). -/
theorem flattenGroups_placeInto (key : LC) (bkt : List Block) :
    ∀ (st st' : List (LC × List Block)), placeInto key bkt st = some st' →
    (flattenGroups st').Perm (flattenGroups st ++ bkt) := by
  intro st
  induction st with
  | nil => intro st' h; simp [placeInto] at h
  | cons e rest ih =>
    obtain ⟨ck, lst⟩ := e
    intro st' h
    unfold placeInto at h
    by_cases hm : substrRel (normalizeName key) (normalizeName ck) = true
    · rw [if_pos hm] at h
      by_cases hl : bkt.length > lst.length
      · rw [if_pos hl] at h
        have hst := Option.some.inj h
        subst hst
        have h1 : flattenGroups (rest ++ [(key, lst ++ bkt)]) =
            flattenGroups rest ++ (lst ++ bkt) := by
          simp [flattenGroups]
        have h2 : flattenGroups ((ck, lst) :: rest) ++ bkt =
            (lst ++ flattenGroups rest) ++ bkt := by
          simp [flattenGroups]
        rw [h1, h2]
        have hp : List.Perm (flattenGroups rest ++ lst) (lst ++ flattenGroups rest) :=
          List.perm_append_comm
        have := hp.append_right bkt
        simpa [List.append_assoc] using this
      · rw [if_neg hl] at h
        have hst := Option.some.inj h
        subst hst
        have h1 : flattenGroups ((ck, lst ++ bkt) :: rest) =
            lst ++ (bkt ++ flattenGroups rest) := by
          simp [flattenGroups]
        have h2 : flattenGroups ((ck, lst) :: rest) ++ bkt =
            lst ++ (flattenGroups rest ++ bkt) := by
          simp [flattenGroups]
        rw [h1, h2]
        exact (List.perm_append_comm).append_left lst
    · rw [if_neg hm] at h
      cases hrec : placeInto key bkt rest with
      | none => rw [hrec] at h; simp at h
      | some r =>
        rw [hrec] at h
        have hst : (ck, lst) :: r = st' := by simpa using h
        subst hst
        have hih := ih r hrec
        have h1 : flattenGroups ((ck, lst) :: r) = lst ++ flattenGroups r := by
          simp [flattenGroups]
        have h2 : flattenGroups ((ck, lst) :: rest) ++ bkt =
            lst ++ (flattenGroups rest ++ bkt) := by
          simp [flattenGroups]
        rw [h1, h2]
        exact hih.append_left lst

/-- The canonical-key loop conserves blocks: folding `groupStep` adds
exactly the looked-up buckets to the flattened table. -/
theorem flattenGroups_foldl_groupStep (raw : List (LC × List Block)) :
    ∀ (keys : List LC) (st : List (LC × List Block)),
    (flattenGroups ((keys.foldl (groupStep raw) st))).Perm
      (flattenGroups st ++ (keys.map (fun k => (lookupA k raw).getD [])).flatten) := by
  intro keys
  induction keys with
  | nil => intro st; simp
  | cons k ks ih =>
    intro st
    rw [List.foldl_cons]
    have hstep : (flattenGroups (groupStep raw st k)).Perm
        (flattenGroups st ++ (lookupA k raw).getD []) := by
      unfold groupStep
      cases hp : placeInto k ((lookupA k raw).getD []) st with
      | some st' =>
        simp only [hp]
        exact flattenGroups_placeInto k ((lookupA k raw).getD []) st st' hp
      | none =>
        simp only [hp]
        simp [flattenGroups]
    have hrest := ih (groupStep raw st k)
    refine hrest.trans ?_
    have := hstep.append_right ((ks.map (fun k => (lookupA k raw).getD [])).flatten)
    simp only [List.map_cons, List.flatten_cons]
    simpa [List.append_assoc] using this

/-- Joining the per-name filters over a duplicate-free list of names
covering `l` yields a permutation of `l`. -/
theorem flatten_filterName_perm :
    ∀ (keys : List LC) (l : List Block), keys.Nodup →
    (∀ b ∈ l, b.arg_name ∈ keys) →
    ((keys.map (fun k => filterName k l)).flatten).Perm l := by
  intro keys
  induction keys with
  | nil =>
    intro l _ hcov
    cases l with
    | nil => simp
    | cons b bs => exact absurd (hcov b (List.mem_cons_self b bs)) (by simp)
  | cons k ks ih =>
    intro l hnd hcov
    simp only [List.map_cons, List.flatten_cons]
    have hks : ∀ k' ∈ ks, filterName k' l =
        filterName k' (l.filter (fun b => !(decide (b.arg_name = k)))) := by
      intro k' hk'
      have hkk : k ≠ k' := by
        rintro rfl
        exact (List.nodup_cons.mp hnd).1 hk'
      unfold filterName
      rw [List.filter_filter]
      apply List.filter_congr
      intro b _
      have hkk' : ¬ k' = k := fun h => hkk h.symm
      by_cases hb : b.arg_name = k'
      · simp [hb, hkk']
      · simp [hb]
    have hmapeq : ks.map (fun k' => filterName k' l) =
        ks.map (fun k' => filterName k' (l.filter (fun b => !(decide (b.arg_name = k))))) :=
      List.map_congr_left hks
    rw [hmapeq]
    have hcov' : ∀ b ∈ l.filter (fun b => !(decide (b.arg_name = k))), b.arg_name ∈ ks := by
      intro b hb
      obtain ⟨hbl, hbk⟩ := List.mem_filter.mp hb
      have := hcov b hbl
      rcases List.mem_cons.mp this with h1 | h2
      · simp [h1] at hbk
      · exact h2
    have hperm := ih (l.filter (fun b => !(decide (b.arg_name = k))))
      (List.nodup_cons.mp hnd).2 hcov'
    have := hperm.append_left (filterName k l)
    refine this.trans ?_
    exact List.filter_append_perm (fun b => decide (b.arg_name = k)) l

/-- The bucket looked up in `raw` is the name filter, for every key. -/
theorem lookupA_rawBuckets_getD (k : LC) (l : List Block) :
    (lookupA k (rawBuckets l)).getD [] = filterName k l := by
  rw [lookupA_rawBuckets]
  by_cases h : (filterName k l).isEmpty
  · simp [h, List.isEmpty_iff.mp h]
  · simp [h]

/-- `group_by_argument` conserves blocks: its flattened output is a
permutation of its input. -/
theorem group_flatten_perm (l : List Block) :
    (flattenGroups (group_by_argument l)).Perm l := by
  obtain ⟨hnd0, hmem0⟩ := rawBuckets_keys l [] (by simp)
  have hnd0' : ((rawBuckets l).map Prod.fst).Nodup := by simpa [rawBuckets] using hnd0
  have hkeysperm : (ssortByDesc (fun k : LC => k.length) ((rawBuckets l).map Prod.fst)).Perm
      ((rawBuckets l).map Prod.fst) := ssortByDesc_perm _ _
  have hndS : (ssortByDesc (fun k : LC => k.length) ((rawBuckets l).map Prod.fst)).Nodup :=
    hkeysperm.nodup_iff.mpr hnd0'
  have hcovS : ∀ b ∈ l, b.arg_name ∈
      ssortByDesc (fun k : LC => k.length) ((rawBuckets l).map Prod.fst) := by
    intro b hb
    rw [hkeysperm.mem_iff]
    have := (hmem0 b.arg_name).mpr (Or.inr ⟨b, hb, rfl⟩)
    simpa [rawBuckets] using this
  unfold group_by_argument
  have hsortperm := ssortByDesc_perm (fun e : LC × List Block => e.2.length)
    ((ssortByDesc (fun k : LC => k.length) ((rawBuckets l).map Prod.fst)).foldl
      (groupStep (rawBuckets l)) [])
  have h1 : (flattenGroups (ssortByDesc (fun e : LC × List Block => e.2.length)
      ((ssortByDesc (fun k : LC => k.length) ((rawBuckets l).map Prod.fst)).foldl
        (groupStep (rawBuckets l)) []))).Perm
      (flattenGroups ((ssortByDesc (fun k : LC => k.length)
        ((rawBuckets l).map Prod.fst)).foldl (groupStep (rawBuckets l)) [])) :=
    (hsortperm.map Prod.snd).flatten
  refine h1.trans ?_
  have h2 := flattenGroups_foldl_groupStep (rawBuckets l)
    (ssortByDesc (fun k : LC => k.length) ((rawBuckets l).map Prod.fst)) []
  refine h2.trans ?_
  have h3 : ((ssortByDesc (fun k : LC => k.length) ((rawBuckets l).map Prod.fst)).map
      (fun k => (lookupA k (rawBuckets l)).getD [])) =
      ((ssortByDesc (fun k : LC => k.length) ((rawBuckets l).map Prod.fst)).map
        (fun k => filterName k l)) := by
    apply List.map_congr_left
    intro k _
    exact lookupA_rawBuckets_getD k l
  simp only [flattenGroups, List.map_nil, List.flatten_nil, List.nil_append, h3]
  exact flatten_filterName_perm _ l hndS hcovS

/-- Positive-count elements of a natural sum equal to one. -/
theorem sum_one_countP (ns : List Nat) (h : ns.sum = 1) :
    ns.countP (fun n => decide (0 < n)) = 1 := by
  induction ns with
  | nil => simp at h
  | cons n t ih =>
    rw [List.sum_cons] at h
    rcases Nat.eq_zero_or_pos n with h0 | hp
    · subst h0
      simp only [Nat.zero_add] at h
      rw [List.countP_cons]
      simp [ih h]
    · have hn1 : n = 1 ∧ t.sum = 0 := by omega
      obtain ⟨rfl, hts⟩ := hn1
      have hall : ∀ x ∈ t, x = 0 := List.sum_eq_zero_iff.mp hts
      have hcz : t.countP (fun n => decide (0 < n)) = 0 := by
        rw [List.countP_eq_zero]
        intro a ha
        simp [hall a ha]
      rw [List.countP_cons]
      simp [hcz]

/-- **C10.**  Grouping conserves blocks: the concatenation of the
output group lists is a permutation of the input (no block dropped,
duplicated, or invented), and a block occurring once in the input lies
in exactly one output group. -/
theorem claim10_theorem (l : List Block) :
    (flattenGroups (group_by_argument l)).Perm l ∧
    (∀ b ∈ l, List.count b l = 1 →
      (group_by_argument l).countP (fun g => decide (b ∈ g.2)) = 1) := by
  refine ⟨group_flatten_perm l, ?_⟩
  intro b _ hcount
  have hperm := group_flatten_perm l
  have hc : List.count b (flattenGroups (group_by_argument l)) = 1 := by
    rw [hperm.count_eq b, hcount]
  rw [flattenGroups, List.count_flatten, List.map_map] at hc
  have heq : (group_by_argument l).countP (fun g => decide (b ∈ g.2)) =
      ((group_by_argument l).map (List.count b ∘ Prod.snd)).countP
        (fun n => decide (0 < n)) := by
    rw [List.countP_map]
    apply List.countP_congr
    intro g _
    simp [Function.comp, List.count_pos_iff]
  rw [heq]
  exact sum_one_countP _ hc

/-- **C10, witness**: conservation evaluated on a two-block input. -/
theorem claim10_witness :
    ((flattenGroups (group_by_argument
        [⟨str "Econ", [str "a"], {}⟩, ⟨str "States", [str "b"], {}⟩])).Perm
      [⟨str "Econ", [str "a"], {}⟩, ⟨str "States", [str "b"], {}⟩]) ∧
    (⟨str "Econ", [str "a"], {}⟩ : Block) ∈
      [⟨str "Econ", [str "a"], {}⟩, ⟨str "States", [str "b"], {}⟩] ∧
    List.count (⟨str "Econ", [str "a"], {}⟩ : Block)
      [⟨str "Econ", [str "a"], {}⟩, ⟨str "States", [str "b"], {}⟩] = 1 ∧
    (group_by_argument [⟨str "Econ", [str "a"], {}⟩, ⟨str "States", [str "b"], {}⟩]).countP
      (fun g => decide ((⟨str "Econ", [str "a"], {}⟩ : Block) ∈ g.2)) = 1 :=
  ⟨(claim10_theorem _).1, by decide, by decide,
   (claim10_theorem _).2 _ (by decide) (by decide)⟩

/-! ## Claim C1: deduplication within canonical groups -/

/-- A duplicated block for the C1 counterexample. -/
def dupBlock : Block := ⟨str "X", [str "same line"], { opensource := str "p.docx" }⟩

/-- **C1, counterexample.**  Two blocks with (identically) equal
content fingerprints both appear in the same canonical group:
`group_by_argument` performs no deduplication at all. -/
theorem claim1_counterexample :
    fingerprint dupBlock = fingerprint dupBlock ∧
    group_by_argument [dupBlock, dupBlock] = [(str "X", [dupBlock, dupBlock])] ∧
    (group_by_argument [dupBlock, dupBlock]).countP
      (fun g => decide (dupBlock ∈ g.2)) = 1 := by
  refine ⟨rfl, by decide, by decide⟩

/-- **C1, amended.**  Within the canonical groups nothing is ever
dropped: grouping preserves the multiplicity of every block, so blocks
with equal fingerprints (in particular, equal blocks) all survive. -/
theorem claim1_theorem (l : List Block) (b : Block) :
    List.count b (flattenGroups (group_by_argument l)) = List.count b l :=
  (group_flatten_perm l).count_eq b

/-! ## Claim C7: substring merging of argument names -/

/-- A duplicate-free list whose members are exactly two distinct
elements is one of the two orderings. -/
theorem nodup_two_mem {α : Type} (a b : α) (hab : a ≠ b) :
    ∀ (xs : List α), xs.Nodup → (∀ x, x ∈ xs ↔ x = a ∨ x = b) →
    xs = [a, b] ∨ xs = [b, a] := by
  intro xs
  match xs with
  | [] =>
    intro _ hmem
    exact absurd ((hmem a).mpr (Or.inl rfl)) (by simp)
  | [x] =>
    intro _ hmem
    have hxa : a = x := by simpa using (hmem a).mpr (Or.inl rfl)
    have hxb : b = x := by simpa using (hmem b).mpr (Or.inr rfl)
    exact absurd (hxa.trans hxb.symm) hab
  | x :: y :: rest =>
    intro hnd hmem
    have hx := (hmem x).mp (by simp)
    have hy := (hmem y).mp (by simp)
    have hxy : x ≠ y := by
      have := (List.nodup_cons.mp hnd).1
      intro hc
      exact this (hc ▸ List.mem_cons_self y rest)
    have hrest : rest = [] := by
      cases rest with
      | nil => rfl
      | cons z zs =>
        exfalso
        have hz := (hmem z).mp (by simp)
        have hxz : x ≠ z := by
          have := (List.nodup_cons.mp hnd).1
          intro hc
          exact this (hc ▸ (by simp : z ∈ y :: z :: zs))
        have hyz : y ≠ z := by
          have := (List.nodup_cons.mp (List.nodup_cons.mp hnd).2).1
          intro hc
          exact this (hc ▸ List.mem_cons_self z zs)
        rcases hx with rfl | rfl <;> rcases hy with rfl | rfl <;>
          rcases hz with rfl | rfl <;> simp_all
    subst hrest
    rcases hx with rfl | rfl <;> rcases hy with rfl | rfl
    · exact absurd rfl hxy
    · exact Or.inl rfl
    · exact Or.inr rfl
    · exact absurd rfl hxy

/-- **C7.**  When the input names are exactly `Antitrust` and
`Antitrust DA` (both present), grouping always merges the two raw
buckets into a single canonical group — the longer name is processed
first, the shorter is a normalized substring of it — containing the
`Antitrust DA` bucket followed by the `Antitrust` bucket, renamed to
the incoming shorter name exactly when its bucket is strictly larger. -/
theorem claim7_theorem (l : List Block)
    (hcov : ∀ b ∈ l, b.arg_name = str "Antitrust" ∨ b.arg_name = str "Antitrust DA")
    (hA : ∃ b ∈ l, b.arg_name = str "Antitrust")
    (hB : ∃ b ∈ l, b.arg_name = str "Antitrust DA") :
    group_by_argument l =
      [(if (filterName (str "Antitrust") l).length >
            (filterName (str "Antitrust DA") l).length
        then str "Antitrust" else str "Antitrust DA",
        filterName (str "Antitrust DA") l ++ filterName (str "Antitrust") l)] := by
  obtain ⟨hnd0, hmem0⟩ := rawBuckets_keys l [] (by simp)
  have hnd0' : ((rawBuckets l).map Prod.fst).Nodup := by simpa [rawBuckets] using hnd0
  have hmem0' : ∀ k, k ∈ (rawBuckets l).map Prod.fst ↔
      k = str "Antitrust" ∨ k = str "Antitrust DA" := by
    intro k
    have := hmem0 k
    simp only [rawBuckets] at this ⊢
    rw [this]
    constructor
    · rintro (hk | ⟨b, hb, rfl⟩)
      · simp at hk
      · exact hcov b hb
    · rintro (rfl | rfl)
      · obtain ⟨b, hb, hbn⟩ := hA
        exact Or.inr ⟨b, hb, hbn⟩
      · obtain ⟨b, hb, hbn⟩ := hB
        exact Or.inr ⟨b, hb, hbn⟩
  have hkeys2 := nodup_two_mem (str "Antitrust") (str "Antitrust DA") (by decide)
    ((rawBuckets l).map Prod.fst) hnd0' hmem0'
  have hsorted : ssortByDesc (fun k : LC => k.length) ((rawBuckets l).map Prod.fst) =
      [str "Antitrust DA", str "Antitrust"] := by
    rcases hkeys2 with h | h <;> rw [h] <;> decide
  have hstep1 : groupStep (rawBuckets l) [] (str "Antitrust DA") =
      [(str "Antitrust DA", filterName (str "Antitrust DA") l)] := by
    simp [groupStep, placeInto, lookupA_rawBuckets_getD]
  have hsub : substrRel (normalizeName (str "Antitrust"))
      (normalizeName (str "Antitrust DA")) = true := by decide
  have hstep2 : groupStep (rawBuckets l)
      [(str "Antitrust DA", filterName (str "Antitrust DA") l)] (str "Antitrust") =
      [(if (filterName (str "Antitrust") l).length >
            (filterName (str "Antitrust DA") l).length
        then str "Antitrust" else str "Antitrust DA",
        filterName (str "Antitrust DA") l ++ filterName (str "Antitrust") l)] := by
    by_cases hc : (filterName (str "Antitrust") l).length >
        (filterName (str "Antitrust DA") l).length
    · simp [groupStep, placeInto, lookupA_rawBuckets_getD, hsub, hc]
    · simp [groupStep, placeInto, lookupA_rawBuckets_getD, hsub, hc]
  unfold group_by_argument
  simp only [hsorted, List.foldl_cons, List.foldl_nil, hstep1, hstep2]
  simp [ssortByDesc, ssortIns]

/-- The four blocks of the spec's Antitrust scenario: two documents
each containing `AT: Antitrust` and `AT: Antitrust DA`. -/
def antitrustBlocks : List Block :=
  [⟨str "Antitrust", [str "a1"], { opensource := str "doc1" }⟩,
   ⟨str "Antitrust DA", [str "b1"], { opensource := str "doc1" }⟩,
   ⟨str "Antitrust", [str "a2"], { opensource := str "doc2" }⟩,
   ⟨str "Antitrust DA", [str "b2"], { opensource := str "doc2" }⟩]

/-- **C7, witness**: the scenario input merges into one group, under
`Antitrust DA` (the incoming `Antitrust` bucket is not larger). -/
theorem claim7_witness :
    (∀ b ∈ antitrustBlocks,
      b.arg_name = str "Antitrust" ∨ b.arg_name = str "Antitrust DA") ∧
    group_by_argument antitrustBlocks =
      [(if (filterName (str "Antitrust") antitrustBlocks).length >
            (filterName (str "Antitrust DA") antitrustBlocks).length
        then str "Antitrust" else str "Antitrust DA",
        filterName (str "Antitrust DA") antitrustBlocks ++
          filterName (str "Antitrust") antitrustBlocks)] ∧
    (group_by_argument antitrustBlocks).length = 1 :=
  ⟨by decide,
   claim7_theorem antitrustBlocks (by decide) (by decide) (by decide),
   by decide⟩

/-! ## Claim C8: idempotence of grouping -/

/-- Five blocks under the names `abc`, `abd` (x3), `ab`: the tie in
length between `abc` and `abd` makes regrouping unstable. -/
def c8blocks : List Block :=
  [⟨str "abc", [str "0"], {}⟩,
   ⟨str "abd", [str "1"], {}⟩,
   ⟨str "abd", [str "2"], {}⟩,
   ⟨str "abd", [str "3"], {}⟩,
   ⟨str "ab", [str "4"], {}⟩]

/-- **C8, counterexample.**  Re-running grouping on the flattened
output of a previous run changes the groups: in the first run the
`ab` bucket merges into `abc` (processed before its equal-length peer
`abd`), but the first run's output reorders the buckets by block count,
so in the second run `abd` is the first canonical entry and absorbs
`ab` — the group under `abd` gains a block it did not have. -/
theorem claim8_counterexample :
    group_by_argument (flattenGroups (group_by_argument c8blocks)) ≠
      group_by_argument c8blocks ∧
    (str "abd", [⟨str "abd", [str "1"], {}⟩, ⟨str "abd", [str "2"], {}⟩,
      ⟨str "abd", [str "3"], {}⟩, ⟨str "ab", [str "4"], {}⟩]) ∈
      group_by_argument (flattenGroups (group_by_argument c8blocks)) ∧
    (str "abd", [⟨str "abd", [str "1"], {}⟩, ⟨str "abd", [str "2"], {}⟩,
      ⟨str "abd", [str "3"], {}⟩, ⟨str "ab", [str "4"], {}⟩]) ∉
      group_by_argument c8blocks := by
  refine ⟨by decide, by decide, by decide⟩

/-- The nonempty per-entry name filters of a canonical table. -/
def entF (k : LC) (st : List (LC × List Block)) : List (List Block) :=
  (st.map (fun e => filterName k e.2)).filter (fun v => !v.isEmpty)

/-- `entF` over a cons. -/
theorem entF_cons (k : LC) (e : LC × List Block) (st : List (LC × List Block)) :
    entF k (e :: st) =
      (if (filterName k e.2).isEmpty then [] else [filterName k e.2]) ++ entF k st := by
  unfold entF
  rw [List.map_cons, List.filter_cons]
  by_cases h : (filterName k e.2).isEmpty <;> simp [h]

/-- `entF` over an append. -/
theorem entF_append (k : LC) (st1 st2 : List (LC × List Block)) :
    entF k (st1 ++ st2) = entF k st1 ++ entF k st2 := by
  unfold entF
  rw [List.map_append, List.filter_append]

/-- Filtering distributes over flatten. -/
theorem filter_flatten_eq (p : Block → Bool) :
    ∀ (L : List (List Block)), (L.flatten).filter p = (L.map (List.filter p)).flatten := by
  intro L
  induction L with
  | nil => simp
  | cons v vs ih => simp [List.filter_append, ih]

/-- Empty sublists do not contribute to a flatten. -/
theorem flatten_filter_ne_nil :
    ∀ (L : List (List Block)), (L.filter (fun v => !v.isEmpty)).flatten = L.flatten := by
  intro L
  induction L with
  | nil => simp
  | cons v vs ih =>
    rw [List.filter_cons]
    by_cases h : v.isEmpty
    · have hv : v = [] := List.isEmpty_iff.mp h
      simp [h, hv, ih]
    · simp [h, ih]

/-- The `k`-named blocks of a table's flattened contents are the
flatten of `entF k`. -/
theorem filterName_flattenGroups (k : LC) (st : List (LC × List Block)) :
    filterName k (flattenGroups st) = (entF k st).flatten := by
  unfold flattenGroups entF filterName
  rw [filter_flatten_eq, flatten_filter_ne_nil, List.map_map]
  rfl

/-- The name filter of a bucket whose blocks all carry name `key`. -/
theorem filterName_uniform (key j : LC) (bkt : List Block)
    (hb : ∀ b ∈ bkt, b.arg_name = key) :
    filterName j bkt = if j = key then bkt else [] := by
  by_cases h : j = key
  · subst h
    simp only [if_true]
    unfold filterName
    apply List.filter_eq_self.mpr
    intro b hbm
    simp [hb b hbm]
  · rw [if_neg h]
    unfold filterName
    apply List.filter_eq_nil_iff.mpr
    intro b hbm
    have hbj : ¬ b.arg_name = j := by
      rw [hb b hbm]
      exact fun hc => h hc.symm
    simp [hbj]

/-- Two lists whose concatenation has at most one element commute. -/
theorem append_comm_of_le_one {α : Type} (xs ys : List α)
    (h : (xs ++ ys).length ≤ 1) : xs ++ ys = ys ++ xs := by
  cases xs with
  | nil => simp
  | cons x xt =>
    cases ys with
    | nil => simp
    | cons y yt => simp only [List.length_append, List.length_cons] at h; omega

/-- Effect of a successful `placeInto` on `entF`: the incoming
(uniformly named, nonempty) bucket lands in exactly one entry — under
its own key the filtered contents become `[bkt]`, every other name's
filtered contents are unchanged — provided the key is new and every
name's filtered contents were at most a singleton. -/
theorem placeInto_entF (key : LC) (bkt : List Block)
    (hb : ∀ b ∈ bkt, b.arg_name = key) (hbne : ¬ bkt.isEmpty) :
    ∀ (st st' : List (LC × List Block)), placeInto key bkt st = some st' →
    (∀ j, (entF j st).length ≤ 1) → entF key st = [] →
    entF key st' = [bkt] ∧ ∀ j, j ≠ key → entF j st' = entF j st := by
  intro st
  induction st with
  | nil => intro st' h; simp [placeInto] at h
  | cons e rest ih =>
    obtain ⟨ck, lst⟩ := e
    intro st' h hle hkey
    have hkey_head : filterName key lst = [] := by
      rw [entF_cons] at hkey
      by_cases hq : (filterName key lst).isEmpty
      · exact List.isEmpty_iff.mp hq
      · rw [if_neg hq] at hkey; simp at hkey
    have hkey_rest : entF key rest = [] := by
      rw [entF_cons] at hkey
      exact (List.append_eq_nil.mp hkey).2
    have hfkb : filterName key (lst ++ bkt) = bkt := by
      unfold filterName at hkey_head ⊢
      rw [List.filter_append]
      rw [show List.filter (fun b => decide (b.arg_name = key)) lst = [] from hkey_head]
      simp only [List.nil_append]
      have := filterName_uniform key key bkt hb
      simpa [filterName] using this
    have hfjb : ∀ j, j ≠ key → filterName j (lst ++ bkt) = filterName j lst := by
      intro j hj
      unfold filterName
      rw [List.filter_append]
      have := filterName_uniform key j bkt hb
      rw [if_neg hj] at this
      simpa [filterName] using this
    unfold placeInto at h
    by_cases hm : substrRel (normalizeName key) (normalizeName ck) = true
    · rw [if_pos hm] at h
      by_cases hl : bkt.length > lst.length
      · -- rename: the entry is popped and re-appended at the end
        rw [if_pos hl] at h
        have hst := Option.some.inj h
        subst hst
        have hbne' : bkt.isEmpty = false := by simpa using hbne
        constructor
        · simp only [entF_append, entF_cons]
          rw [hkey_rest, hfkb]
          simp [entF, hbne']
        · intro j hj
          simp only [entF_append, entF_cons]
          rw [hfjb j hj]
          simp only [entF, List.map_nil, List.filter_nil, List.append_nil]
          have hlen := hle j
          rw [entF_cons] at hlen
          exact (append_comm_of_le_one _ _ hlen).symm
      · -- in-place merge
        rw [if_neg hl] at h
        have hst := Option.some.inj h
        subst hst
        have hbne' : bkt.isEmpty = false := by simpa using hbne
        constructor
        · rw [entF_cons, hfkb, hkey_rest]
          simp [hbne']
        · intro j hj
          rw [entF_cons, entF_cons, hfjb j hj]
    · rw [if_neg hm] at h
      cases hrec : placeInto key bkt rest with
      | none => rw [hrec] at h; simp at h
      | some r =>
        rw [hrec] at h
        have hst : (ck, lst) :: r = st' := by simpa using h
        subst hst
        have hle' : ∀ j, (entF j rest).length ≤ 1 := by
          intro j
          have := hle j
          rw [entF_cons] at this
          calc (entF j rest).length
              ≤ ((if (filterName j lst).isEmpty then [] else [filterName j lst])
                  ++ entF j rest).length := by simp
            _ ≤ 1 := this
        obtain ⟨ih1, ih2⟩ := ih r hrec hle' hkey_rest
        constructor
        · rw [entF_cons, ih1]
          have : (filterName key lst).isEmpty := by simp [hkey_head]
          simp [this]
        · intro j hj
          rw [entF_cons, entF_cons, ih2 j hj]

/-- Blocks in a name filter carry that name. -/
theorem filterName_mem_name (k : LC) (l : List Block) :
    ∀ b ∈ filterName k l, b.arg_name = k := by
  intro b hb
  have := (List.mem_filter.mp hb).2
  simpa using this

/-- The canonical-key loop, tracked through `entF`: after processing a
duplicate-free batch of fresh keys with nonempty buckets, the filtered
contents under each processed key are exactly its bucket, and nothing
else appears. -/
theorem foldl_groupStep_entF (l : List Block) :
    ∀ (keysP : List LC) (processed : List LC) (st : List (LC × List Block)),
    keysP.Nodup →
    (∀ k ∈ keysP, filterName k l ≠ [] ∧ k ∉ processed) →
    (∀ k, entF k st = if k ∈ processed then [filterName k l] else []) →
    ∀ k, entF k (keysP.foldl (groupStep (rawBuckets l)) st) =
      if k ∈ processed ∨ k ∈ keysP then [filterName k l] else [] := by
  intro keysP
  induction keysP with
  | nil =>
    intro processed st _ _ hinv k
    simp only [List.foldl_nil, List.not_mem_nil, or_false]
    exact hinv k
  | cons key ks ih =>
    intro processed st hnd hfresh hinv
    have hbkt : (lookupA key (rawBuckets l)).getD [] = filterName key l :=
      lookupA_rawBuckets_getD key l
    have hbne : filterName key l ≠ [] := (hfresh key (List.mem_cons_self key ks)).1
    have hkeyfresh : key ∉ processed := (hfresh key (List.mem_cons_self key ks)).2
    have huni : ∀ b ∈ filterName key l, b.arg_name = key := filterName_mem_name key l
    have hkey_st : entF key st = [] := by
      rw [hinv key, if_neg hkeyfresh]
    have hinv' : ∀ k, entF k (groupStep (rawBuckets l) st key) =
        if k ∈ key :: processed then [filterName k l] else [] := by
      unfold groupStep
      rw [hbkt]
      cases hp : placeInto key (filterName key l) st with
      | none =>
        simp only [hp]
        intro k
        rw [entF_append, entF_cons]
        have hfk := filterName_uniform key k (filterName key l) huni
        by_cases hk : k = key
        · subst hk
          rw [hfk, if_pos rfl, hinv k, if_neg hkeyfresh]
          have : (filterName k l).isEmpty = false := by
            simpa [List.isEmpty_iff] using hbne
          simp [entF, this]
        · rw [hfk, if_neg hk, hinv k]
          have hmm : (k ∈ key :: processed) ↔ (k ∈ processed) := by
            simp [List.mem_cons, hk]
          rw [if_congr hmm rfl rfl]
          simp [entF]
      | some st2 =>
        simp only [hp]
        have hle : ∀ j, (entF j st).length ≤ 1 := by
          intro j
          rw [hinv j]
          by_cases hj : j ∈ processed <;> simp [hj]
        have hbne' : ¬ (filterName key l).isEmpty := by
          simpa [List.isEmpty_iff] using hbne
        obtain ⟨h1, h2⟩ := placeInto_entF key (filterName key l) huni hbne' st st2 hp hle hkey_st
        intro k
        by_cases hk : k = key
        · subst hk
          rw [h1, if_pos (List.mem_cons_self k processed)]
        · rw [h2 k hk, hinv k]
          have hmm : (k ∈ key :: processed) ↔ (k ∈ processed) := by
            simp [List.mem_cons, hk]
          rw [if_congr hmm rfl rfl]
    have hnd' : ks.Nodup := (List.nodup_cons.mp hnd).2
    have hfresh' : ∀ k ∈ ks, filterName k l ≠ [] ∧ k ∉ key :: processed := by
      intro k hk
      refine ⟨(hfresh k (List.mem_cons_of_mem key hk)).1, ?_⟩
      intro hc
      rcases List.mem_cons.mp hc with h1 | h2
      · exact (List.nodup_cons.mp hnd).1 (h1 ▸ hk)
      · exact (hfresh k (List.mem_cons_of_mem key hk)).2 h2
    have := ih (key :: processed) (groupStep (rawBuckets l) st key) hnd' hfresh' hinv'
    intro k
    rw [List.foldl_cons, this k]
    have hmm : (k ∈ key :: processed ∨ k ∈ ks) ↔ (k ∈ processed ∨ k ∈ key :: ks) := by
      simp only [List.mem_cons]
      tauto
    rw [if_congr hmm rfl rfl]

/-- A name filter is nonempty exactly when the name occurs. -/
theorem filterName_ne_nil_iff (k : LC) (x : List Block) :
    filterName k x ≠ [] ↔ ∃ b ∈ x, b.arg_name = k := by
  unfold filterName
  rw [Ne, List.filter_eq_nil_iff]
  push_neg
  simp

/-- `entF` is stable under permutation of the table entries when the
result is empty or a singleton. -/
theorem entF_perm (k : LC) (st st' : List (LC × List Block))
    (hp : st.Perm st') : (entF k st).Perm (entF k st') := by
  unfold entF
  exact (hp.map (fun e => filterName k e.2)).filter (fun v => !v.isEmpty)

/-- **Chunk lemma**: grouping rearranges whole buckets, so the
`k`-named blocks of the flattened output are exactly the `k`-named
blocks of the input, in their original order. -/
theorem filterName_group_flatten (l : List Block) (k : LC) :
    filterName k (flattenGroups (group_by_argument l)) = filterName k l := by
  obtain ⟨hnd0, hmem0⟩ := rawBuckets_keys l [] (by simp)
  have hnd0' : ((rawBuckets l).map Prod.fst).Nodup := by simpa [rawBuckets] using hnd0
  have hmem0' : ∀ j, j ∈ (rawBuckets l).map Prod.fst ↔ ∃ b ∈ l, b.arg_name = j := by
    intro j
    have := hmem0 j
    simp only [rawBuckets] at this ⊢
    rw [this]
    simp
  have hkeysperm : (ssortByDesc (fun j : LC => j.length) ((rawBuckets l).map Prod.fst)).Perm
      ((rawBuckets l).map Prod.fst) := ssortByDesc_perm _ _
  have hndS : (ssortByDesc (fun j : LC => j.length) ((rawBuckets l).map Prod.fst)).Nodup :=
    hkeysperm.nodup_iff.mpr hnd0'
  have hfreshS : ∀ j ∈ ssortByDesc (fun j : LC => j.length) ((rawBuckets l).map Prod.fst),
      filterName j l ≠ [] ∧ j ∉ ([] : List LC) := by
    intro j hj
    refine ⟨?_, by simp⟩
    rw [filterName_ne_nil_iff]
    exact (hmem0' j).mp (hkeysperm.mem_iff.mp hj)
  have hinv0 : ∀ j, entF j ([] : List (LC × List Block)) =
      if j ∈ ([] : List LC) then [filterName j l] else [] := by
    intro j; simp [entF]
  have hcanon := foldl_groupStep_entF l
    (ssortByDesc (fun j : LC => j.length) ((rawBuckets l).map Prod.fst)) [] []
    hndS hfreshS hinv0
  have hout : (group_by_argument l).Perm
      ((ssortByDesc (fun j : LC => j.length) ((rawBuckets l).map Prod.fst)).foldl
        (groupStep (rawBuckets l)) []) := by
    unfold group_by_argument
    exact ssortByDesc_perm _ _
  have hentout := entF_perm k _ _ hout
  rw [hcanon k] at hentout
  rw [filterName_flattenGroups]
  by_cases hk : k ∈ ssortByDesc (fun j : LC => j.length) ((rawBuckets l).map Prod.fst)
  · rw [if_pos (Or.inr hk)] at hentout
    have := List.perm_singleton.mp hentout
    rw [this]
    simp
  · rw [if_neg (by simpa using hk)] at hentout
    have hnil := List.Perm.eq_nil hentout
    rw [hnil]
    have : filterName k l = [] := by
      by_contra hc
      obtain ⟨b, hb, hbk⟩ := (filterName_ne_nil_iff k l).mp hc
      exact hk (hkeysperm.mem_iff.mpr ((hmem0' k).mpr ⟨b, hb, hbk⟩))
    rw [this]
    rfl

/-- Two permuted lists, both sorted strictly descending under a
measure, are equal. -/
theorem eq_of_perm_of_strictDesc {α : Type} (f : α → Nat) (xs ys : List α)
    (hp : xs.Perm ys)
    (h1 : xs.Pairwise (fun a b => f b < f a))
    (h2 : ys.Pairwise (fun a b => f b < f a)) : xs = ys := by
  haveI : IsAntisymm α (fun a b => f b < f a) :=
    ⟨fun a b hab hba => absurd (Nat.lt_trans hab hba) (Nat.lt_irrefl _)⟩
  exact List.eq_of_perm_of_sorted hp h1 h2

/-- Folding the canonical loop depends on the raw table only through
the looked-up buckets. -/
theorem foldl_groupStep_congr (rawA rawB : List (LC × List Block))
    (h : ∀ k, (lookupA k rawA).getD [] = (lookupA k rawB).getD []) :
    ∀ (keys : List LC) (st : List (LC × List Block)),
    keys.foldl (groupStep rawA) st = keys.foldl (groupStep rawB) st := by
  intro keys
  induction keys with
  | nil => intro st; rfl
  | cons k ks ih =>
    intro st
    rw [List.foldl_cons, List.foldl_cons]
    have hstep : groupStep rawA st k = groupStep rawB st k := by
      unfold groupStep
      rw [h k]
    rw [hstep, ih]

/-- **C8, amended** (no two distinct argument names of equal length):
re-running grouping on the flattened output of a previous run
reproduces that run's result exactly.  (With a length tie among
distinct names the stable sort can process them in a different order
after the first run reorders the buckets, changing group membership —
see the counterexample.) -/
theorem claim8_theorem (l : List Block)
    (hdl : ∀ b1 ∈ l, ∀ b2 ∈ l,
      b1.arg_name.length = b2.arg_name.length → b1.arg_name = b2.arg_name) :
    group_by_argument (flattenGroups (group_by_argument l)) = group_by_argument l := by
  set l1 := flattenGroups (group_by_argument l) with hl1
  -- the two raw tables agree bucket-for-bucket
  have hbuckets : ∀ k, (lookupA k (rawBuckets l1)).getD [] =
      (lookupA k (rawBuckets l)).getD [] := by
    intro k
    rw [lookupA_rawBuckets_getD, lookupA_rawBuckets_getD, hl1,
      filterName_group_flatten]
  -- the two key lists are permutations of each other
  obtain ⟨hndA, hmemA⟩ := rawBuckets_keys l [] (by simp)
  obtain ⟨hndB, hmemB⟩ := rawBuckets_keys l1 [] (by simp)
  have hndA' : ((rawBuckets l).map Prod.fst).Nodup := by simpa [rawBuckets] using hndA
  have hndB' : ((rawBuckets l1).map Prod.fst).Nodup := by simpa [rawBuckets] using hndB
  have hmemA' : ∀ j, j ∈ (rawBuckets l).map Prod.fst ↔ filterName j l ≠ [] := by
    intro j
    have := hmemA j
    simp only [rawBuckets] at this ⊢
    rw [this, filterName_ne_nil_iff]
    simp
  have hmemB' : ∀ j, j ∈ (rawBuckets l1).map Prod.fst ↔ filterName j l ≠ [] := by
    intro j
    have h0 := hmemB j
    simp only [rawBuckets, hl1] at h0 ⊢
    rw [h0]
    simp only [List.map_nil, List.not_mem_nil, false_or]
    rw [← filterName_ne_nil_iff, filterName_group_flatten]
  have hkeysperm : ((rawBuckets l1).map Prod.fst).Perm ((rawBuckets l).map Prod.fst) := by
    rw [List.perm_ext_iff_of_nodup hndB' hndA']
    intro j
    rw [hmemA' j, hmemB' j]
  -- names occurring among the keys have pairwise distinct lengths
  have hlens : ∀ j1 ∈ (rawBuckets l).map Prod.fst, ∀ j2 ∈ (rawBuckets l).map Prod.fst,
      j1 ≠ j2 → j1.length ≠ j2.length := by
    intro j1 hj1 j2 hj2 hne hlen
    obtain ⟨b1, hb1, hb1n⟩ := (filterName_ne_nil_iff j1 l).mp ((hmemA' j1).mp hj1)
    obtain ⟨b2, hb2, hb2n⟩ := (filterName_ne_nil_iff j2 l).mp ((hmemA' j2).mp hj2)
    apply hne
    rw [← hb1n, ← hb2n]
    exact hdl b1 hb1 b2 hb2 (by rw [hb1n, hb2n, hlen])
  -- hence the two stable sorts agree
  have hsortA := ssortByDesc_sorted (fun j : LC => j.length) ((rawBuckets l).map Prod.fst)
  have hsortB := ssortByDesc_sorted (fun j : LC => j.length) ((rawBuckets l1).map Prod.fst)
  have hpermA : (ssortByDesc (fun j : LC => j.length) ((rawBuckets l).map Prod.fst)).Perm
      ((rawBuckets l).map Prod.fst) := ssortByDesc_perm _ _
  have hpermB : (ssortByDesc (fun j : LC => j.length) ((rawBuckets l1).map Prod.fst)).Perm
      ((rawBuckets l1).map Prod.fst) := ssortByDesc_perm _ _
  have hstrict : ∀ (xs : List LC), xs.Perm ((rawBuckets l).map Prod.fst) →
      xs.Pairwise (fun a b => b.length ≤ a.length) →
      xs.Pairwise (fun a b => b.length < a.length) := by
    intro xs hxp hxs
    have hxnd : xs.Nodup := hxp.nodup_iff.mpr hndA'
    have hcomb := hxs.and hxnd
    refine hcomb.imp_of_mem ?_
    intro a b ha hb hab
    have hna : a ∈ (rawBuckets l).map Prod.fst := hxp.mem_iff.mp ha
    have hnb : b ∈ (rawBuckets l).map Prod.fst := hxp.mem_iff.mp hb
    have := hlens a hna b hnb (fun hc => hab.2 hc)
    omega
  have hkeysS : ssortByDesc (fun j : LC => j.length) ((rawBuckets l1).map Prod.fst) =
      ssortByDesc (fun j : LC => j.length) ((rawBuckets l).map Prod.fst) := by
    apply eq_of_perm_of_strictDesc (fun j : LC => j.length)
    · exact hpermB.trans (hkeysperm.trans hpermA.symm)
    · exact hstrict _ (hpermB.trans hkeysperm) hsortB
    · exact hstrict _ hpermA hsortA
  -- identical sorted keys and identical buckets give identical runs
  show (let raw := rawBuckets l1
        let keys := ssortByDesc (fun k : LC => k.length) (raw.map Prod.fst)
        let canonical := keys.foldl (groupStep raw) []
        ssortByDesc (fun e : LC × List Block => e.2.length) canonical) =
       group_by_argument l
  unfold group_by_argument
  simp only [hkeysS]
  rw [foldl_groupStep_congr (rawBuckets l1) (rawBuckets l) hbuckets]

/-- Blocks whose distinct names have distinct lengths. -/
def c8okBlocks : List Block :=
  [⟨str "Econ", [str "a"], {}⟩,
   ⟨str "Econ DA", [str "b"], {}⟩,
   ⟨str "Econ", [str "c"], {}⟩]

/-- **C8, witness**: on names of pairwise distinct lengths, regrouping
the flattened output reproduces the groups. -/
theorem claim8_witness :
    (∀ b1 ∈ c8okBlocks, ∀ b2 ∈ c8okBlocks,
      b1.arg_name.length = b2.arg_name.length → b1.arg_name = b2.arg_name) ∧
    group_by_argument (flattenGroups (group_by_argument c8okBlocks)) =
      group_by_argument c8okBlocks :=
  ⟨by decide, claim8_theorem c8okBlocks (by decide)⟩
